import Mathlib

/-!
Verification of the `compligator` normalization pipeline
(`src/compligator/normalizer.py`) against its specification.

The development shallowly embeds the Python source: each Python function is
translated into an executable Lean definition bearing the source name
(underscores dropped from private helpers where noted).  Python strings are
modelled as Lean `String`; the handful of Python string methods the source
uses (`str.strip`, `sep.join`, `str.upper`, `str.title`, `str.split("-")[0]`)
are modelled explicitly below as `py`-prefixed definitions over `String.data`.
-/

namespace Compligator

/-- Model of Python `str.strip()`: drop leading and trailing whitespace. -/
def pyStrip (s : String) : String :=
  ⟨((s.data.dropWhile Char.isWhitespace).reverse.dropWhile Char.isWhitespace).reverse⟩

/-- Model of Python `sep.join(list)`. -/
def pyJoin (sep : String) : List String → String
  | [] => ""
  | [x] => x
  | x :: y :: rest => x ++ sep ++ pyJoin sep (y :: rest)

/-- Model of Python `str.upper()` (ASCII letters, as used on control ids). -/
def pyUpper (s : String) : String := ⟨s.data.map Char.toUpper⟩

/-- Model of Python `str.lower()` (used on file extensions). -/
def pyLower (s : String) : String := ⟨s.data.map Char.toLower⟩

/-- Character-level helper for `pyTitle`: the boolean records whether the
previous character was alphabetic. -/
def pyTitleAux : List Char → Bool → List Char
  | [], _ => []
  | c :: cs, prevAlpha =>
      (if c.isAlpha then (if prevAlpha then c.toLower else c.toUpper) else c)
        :: pyTitleAux cs c.isAlpha

/-- Model of Python `str.title()`: capitalize the first letter of each word,
lower-case the rest. -/
def pyTitle (s : String) : String := ⟨pyTitleAux s.data false⟩

/-- Model of Python `cid.split("-")[0]`: the substring before the first
hyphen (the whole string when it has no hyphen). -/
def pySplitHyphenHead (s : String) : String := ⟨s.data.takeWhile (· ≠ '-')⟩

/-- Lexicographic code-point comparison on character lists. -/
def listCharLe : List Char → List Char → Bool
  | [], _ => true
  | _ :: _, [] => false
  | a :: as, b :: bs =>
      if a.toNat < b.toNat then true
      else if b.toNat < a.toNat then false
      else listCharLe as bs

/-- Boolean string order used to model Python `sorted` on strings (both
compare lexicographically by code point). -/
def strLeB (a b : String) : Bool := listCharLe a.data b.data

/-- Stable insertion into a sorted list: an element goes before the first
element it compares less-or-equal to. -/
def pyInsert {A : Type} (le : A → A → Bool) (x : A) : List A → List A
  | [] => [x]
  | y :: ys => if le x y then x :: y :: ys else y :: pyInsert le x ys

/-- Model of Python `sorted`: a stable comparison sort (insertion sort,
which coincides with Python timsort on the comparison's quotient). -/
def pySorted {A : Type} (le : A → A → Bool) : List A → List A
  | [] => []
  | x :: xs => pyInsert le x (pySorted le xs)

/-- Canonical Section record shared by every extractor
(the `{"heading": ..., "level": ..., "content": ...}` dicts of the source). -/
structure Sec where
  heading : String
  level : Nat
  content : String
deriving Repr, DecidableEq

/-! ## PDF extraction (`_extract_pdf`, normalizer.py lines 59-83)

A page-based document is modelled as the list of its pages' raw texts, in
order; a failure to open or read the document (the `except Exception`
branch) is modelled as an `Except.error` input carrying the cause. -/

/-- Model of `_extract_pdf`: one section per page with non-empty stripped
text; any open/read failure aborts the file with a single wrapped error. -/
def extract_pdf (doc : Except String (List String)) : Except String (List Sec) :=
  match doc with
  | .error exc => .error ("pymupdf failed: " ++ exc)
  | .ok pages =>
      .ok ((pages.enumFrom 1).filterMap fun pt =>
        if pyStrip pt.2 ≠ "" then
          some ⟨"Page " ++ toString pt.1, 1, pyStrip pt.2⟩
        else none)

/-- Specification-side description of the PDF result (from spec §4.2/§8):
the 1-based numbers of the pages whose trimmed text is non-empty. -/
def pdfKeptPageNums (pages : List String) : List Nat :=
  (pages.enumFrom 1).filterMap fun pt => if pyStrip pt.2 ≠ "" then some pt.1 else none

/-- Specification-side description of the PDF sections: one per kept page,
heading `"Page <n>"`, level 1, content the page's trimmed text. -/
def pdfSpecSections (pages : List String) : List Sec :=
  (pages.enumFrom 1).filterMap fun pt =>
    if pyStrip pt.2 ≠ "" then some ⟨"Page " ++ toString pt.1, 1, pyStrip pt.2⟩ else none

/-- Generalization of `pdfSpecSections` to an arbitrary first page number
(for the induction on pages). -/
def pdfSectionsFrom (k : Nat) (pages : List String) : List Sec :=
  (pages.enumFrom k).filterMap fun pt =>
    if pyStrip pt.2 ≠ "" then some ⟨"Page " ++ toString pt.1, 1, pyStrip pt.2⟩ else none

/-- Generalization of `pdfKeptPageNums` to an arbitrary first page number. -/
def keptNumsFrom (k : Nat) (pages : List String) : List Nat :=
  (pages.enumFrom k).filterMap fun pt => if pyStrip pt.2 ≠ "" then some pt.1 else none

/-! ## HTML extraction (`_extract_html`, normalizer.py lines 91-159)

The parsed soup is modelled as a tree of elements and text nodes; the
document itself is the list of top-level nodes.  `get_text(separator,
strip=True)` is the separator-join of the stripped non-empty descendant
strings, in document order (BeautifulSoup's documented behaviour). -/

/-- DOM node: a text node or an element with a name, attributes and
children. -/
inductive Html where
  | text (s : String)
  | elem (name : String) (attrs : List (String × String)) (children : List Html)
deriving Repr

/-- Tag name of a node (text nodes have none). -/
def nameOf : Html → String
  | .text _ => ""
  | .elem n _ _ => n

/-- Children of a node. -/
def childrenOf : Html → List Html
  | .text _ => []
  | .elem _ _ cs => cs

mutual

/-- Stripped non-empty descendant strings of a node, in document order
(the strings `get_text(sep, strip=True)` joins). -/
def strTexts : Html → List String
  | .text s => if pyStrip s = "" then [] else [pyStrip s]
  | .elem _ _ cs => strTextsList cs

/-- List version of `strTexts`. -/
def strTextsList : List Html → List String
  | [] => []
  | c :: cs => strTexts c ++ strTextsList cs

end

/-- Model of `node.get_text(separator=sep, strip=True)`. -/
def getText (sep : String) (n : Html) : String := pyJoin sep (strTexts n)

/-- Does the node match a tag name (text nodes never match)? -/
def matchesName (nm : String) : Html → Bool
  | .text _ => false
  | .elem n _ _ => n == nm

/-- Does the node carry the given attribute value (for `role="main"`)? -/
def hasAttr (k v : String) : Html → Bool
  | .text _ => false
  | .elem _ attrs _ => attrs.any fun p => p.1 == k && p.2 == v

mutual

/-- Model of BeautifulSoup `find`: first node in preorder (the node itself,
then its descendants) satisfying the predicate. -/
def findNode (p : Html → Bool) : Html → Option Html
  | .text s => if p (.text s) then some (.text s) else none
  | .elem n a cs =>
      if p (.elem n a cs) then some (.elem n a cs) else findList p cs

/-- First match of `p` in a forest, preorder. -/
def findList (p : Html → Bool) : List Html → Option Html
  | [] => none
  | c :: cs =>
      match findNode p c with
      | some x => some x
      | none => findList p cs

end

/-- Container fallback chain of `_extract_html` lines 107-112:
`<main>`, then `role="main"`, then `<article>`, then `<body>`. -/
def chooseContainer (doc : List Html) : Option Html :=
  match findList (matchesName "main") doc with
  | some c => some c
  | none =>
    match findList (hasAttr "role" "main") doc with
    | some c => some c
    | none =>
      match findList (matchesName "article") doc with
      | some c => some c
      | none => findList (matchesName "body") doc

/-- Heading tags recognized by the walk (line 123). -/
def HEADING_TAGS : List String := ["h1", "h2", "h3", "h4"]

/-- Block-content tags recognized by the walk (line 124). -/
def CONTENT_TAGS : List String := ["p", "li", "td", "th", "figcaption", "blockquote"]

mutual

/-- Model of `container.find_all(tags)` restricted to a single subtree,
including the subtree root when it matches: preorder list of matching
elements. -/
def findAllTags (tags : List String) : Html → List Html
  | .text _ => []
  | .elem n a cs =>
      (if n ∈ tags then [Html.elem n a cs] else []) ++ findAllTagsList tags cs

/-- Model of `find_all` over a forest (used on the container's children,
since `find_all` matches descendants only). -/
def findAllTagsList (tags : List String) : List Html → List Html
  | [] => []
  | c :: cs => findAllTags tags c ++ findAllTagsList tags cs

end

/-- Model of `int(element.name[1])`: the digit in the heading tag name. -/
def rankOf (name : String) : Nat :=
  match name.data with
  | _ :: d :: _ => d.toNat - 48
  | _ => 0

/-- Accumulator state of the heading-delimited walk (lines 118-121). -/
structure WalkSt where
  sections : List Sec
  heading : String
  level : Nat
  lines : List String
deriving Repr

/-- Body a flush would emit: `"\n".join(current_lines).strip()`. -/
def flushBody (st : WalkSt) : String := pyStrip (pyJoin "\n" st.lines)

/-- Per-element step of the walk (lines 126-142): a heading flushes the
accumulator (kept only when the body is non-empty) and resets it; a
content element appends its visible text as one line when non-empty. -/
def step (st : WalkSt) (e : Html) : WalkSt :=
  if nameOf e ∈ HEADING_TAGS then
    let body := flushBody st
    ⟨st.sections ++ (if body ≠ "" then [⟨st.heading, st.level, body⟩] else []),
     getText " " e, rankOf (nameOf e), []⟩
  else
    let t := getText " " e
    if t ≠ "" then ⟨st.sections, st.heading, st.level, st.lines ++ [t]⟩ else st

/-- Walk of a found container (lines 117-159): fold the step over the
matched elements, flush the final accumulator, and fall back to the
container's raw text when no section was produced. -/
def walkContainer (stem : String) (c : Html) : List Sec :=
  let els := findAllTagsList (HEADING_TAGS ++ CONTENT_TAGS) (childrenOf c)
  let stF := els.foldl step ⟨[], stem, 1, []⟩
  let body := flushBody stF
  let sections := stF.sections ++ (if body ≠ "" then [⟨stF.heading, stF.level, body⟩] else [])
  if sections = [] then
    let raw := getText "\n" c
    if raw ≠ "" then [⟨stem, 1, raw⟩] else []
  else sections

/-- Model of `_extract_html` on the parsed soup plus the file stem: when no
container exists, emit one section holding the whole document's visible
text (lines 113-115, with no emptiness check); otherwise walk the
container. -/
def extract_html (doc : List Html) (stem : String) : List Sec :=
  match chooseContainer doc with
  | none => [⟨stem, 1, pyJoin "\n" (strTextsList doc)⟩]
  | some c => walkContainer stem c

mutual

/-- Proper descendants of a node, in document (preorder) order. -/
def descendants : Html → List Html
  | .text _ => []
  | .elem _ _ cs => descList cs

/-- Nodes of a forest together with all their descendants, preorder. -/
def descList : List Html → List Html
  | [] => []
  | c :: cs => c :: descendants c ++ descList cs

end

/-! ## OSCAL JSON extraction (normalizer.py lines 167-269)

Catalogs and profiles are modelled by typed records mirroring exactly the
fields the source reads (`dict.get` with its defaults: a missing or null
string field reads as `""`, a missing list field as `[]`). -/

/-- OSCAL part: name, prose (missing/null read as `""`), nested parts. -/
inductive Part where
  | mk (name : String) (prose : String) (parts : List Part)
deriving Repr

/-- Name of a part. -/
def partName : Part → String
  | .mk n _ _ => n

/-- OSCAL control: id, title, parts, nested enhancement controls. -/
inductive Control where
  | mk (id : String) (title : String) (parts : List Part) (controls : List Control)
deriving Repr

mutual

/-- Model of `_collect_prose` (lines 171-181): the part's stripped prose
when non-empty, then each sub-part's collected prose when non-empty,
joined with newlines. -/
def collect_prose : Part → String
  | .mk _ prose parts =>
      pyJoin "\n" ((if pyStrip prose = "" then [] else [pyStrip prose]) ++ collectSubs parts)

/-- Loop body of `_collect_prose`: recursive results of the sub-parts,
dropping empty ones. -/
def collectSubs : List Part → List String
  | [] => []
  | p :: ps =>
      (let s := collect_prose p
       if s = "" then collectSubs ps else s :: collectSubs ps)

end

mutual

/-- Model of `_extract_control_sections` (lines 184-208): labelled
statement/guidance blocks under `"<ID>: <title>"`, then the enhancement
controls' sections one level deeper. -/
def extract_control_sections : Control → Nat → List Sec
  | .mk id title parts controls, level =>
      let cid := pyUpper id
      let heading := if cid ≠ "" then cid ++ ": " ++ title else title
      let content := pyJoin "\n\n" (partBlocks parts)
      (if heading ≠ "" ∧ content ≠ "" then [⟨heading, level, content⟩] else [])
        ++ extractControlList controls (level + 1)

/-- Loop of lines 193-198: a labelled block per part named exactly
`statement` or `guidance` whose collected prose is non-empty. -/
def partBlocks : List Part → List String
  | [] => []
  | p :: ps =>
      (if partName p ∈ ["statement", "guidance"] then
        (let prose := collect_prose p
         if prose ≠ "" then ["**" ++ pyTitle (partName p) ++ "**\n" ++ prose] else [])
       else []) ++ partBlocks ps

/-- Sections of a list of controls at a given level, concatenated. -/
def extractControlList : List Control → Nat → List Sec
  | [], _ => []
  | c :: cs, level => extract_control_sections c level ++ extractControlList cs level

end

/-- OSCAL catalog group: its controls (the only field read). -/
structure CatGroup where
  controls : List Control
deriving Repr

/-- OSCAL catalog: its groups (the only field read). -/
structure Catalog where
  groups : List CatGroup
deriving Repr

/-- Model of `_extract_catalog` (lines 211-217): every group's top-level
controls extracted at level 2, in document order. -/
def extract_catalog (catalog : Catalog) : List Sec :=
  (catalog.groups.map fun g => extractControlList g.controls 2).flatten

/-- OSCAL profile include-controls entry: its `with-ids` list. -/
structure IncludeControls where
  with_ids : List String
deriving Repr

/-- OSCAL profile import: its `include-controls` list. -/
structure ProfImport where
  include_controls : List IncludeControls
deriving Repr

/-- OSCAL profile: optional metadata title and imports. -/
structure Profile where
  title : Option String
  imports : List ProfImport
deriving Repr

/-- Control ids referenced by a profile, across all imports'
include-controls/with-ids lists, occurrences preserved (lines 224-227). -/
def allIds (p : Profile) : List String :=
  (p.imports.map fun imp => (imp.include_controls.map (·.with_ids)).flatten).flatten

/-- Family of a control id: `cid.split("-")[0].upper()` (line 235). -/
def famOf (cid : String) : String := pyUpper (pySplitHyphenHead cid)

/-- Model of `families.setdefault(family, []).append(cid)` viewed from the
head of the remaining list: a new family key is created in front (Python
dicts keep first-insertion key order, and the head id is the
first-processed one), an existing family gets the id prepended (it
precedes the already-grouped rest of the list). -/
def consFam (k : String) (c : String) (groups : List (String × List String)) :
    List (String × List String) :=
  if k ∈ groups.map Prod.fst then
    groups.map fun kv => if kv.1 = k then (kv.1, c :: kv.2) else kv
  else (k, [c]) :: groups

/-- Insertion-ordered grouping of ids by family (the `families` dict of
lines 233-236). -/
def famGroup : List String → List (String × List String)
  | [] => []
  | c :: rest => consFam (famOf c) c (famGroup rest)

/-- Key order used by `sorted(families.items())`: Python compares the
(distinct) keys first. -/
def pairLeB (a b : String × List String) : Bool := strLeB a.1 b.1

/-- Model of `_extract_profile` (lines 220-251): a summary section then one
section per family in sorted key order; a fixed informational section when
no ids are referenced. -/
def extract_profile (p : Profile) : List Sec :=
  let title := p.title.getD "Unknown Profile"
  let all_ids := allIds p
  if all_ids = [] then
    [⟨title, 1, "No control IDs found in profile."⟩]
  else
    let sortedIds := pySorted strLeB all_ids
    let families := famGroup sortedIds
    ⟨title, 1,
      "Total controls: " ++ toString all_ids.length ++ "\nFamilies: "
        ++ pyJoin ", " (pySorted strLeB (families.map Prod.fst))⟩
      :: (pySorted pairLeB families).map fun fi =>
          ⟨fi.1 ++ " Controls", 2, pyJoin ", " fi.2⟩

/-! ## Raw JSON values and the `_extract_oscal_json` dispatch (lines 254-269)

The top-level dispatch works on whatever `json.loads` returned, via
Python's `in` and `[]` operators, whose per-type behaviour (including the
`TypeError` they raise on non-container values) is modelled faithfully. -/

/-- Parsed JSON value (numbers restricted to integers, which suffices for
the dispatch behaviour at issue). -/
inductive JValue where
  | null
  | bool (b : Bool)
  | num (n : Int)
  | str (s : String)
  | arr (xs : List JValue)
  | obj (fields : List (String × JValue))
deriving Repr

/-- Python exceptions that nothing in the pipeline catches. -/
inductive PyExn where
  | typeError (msg : String)
  | keyError (msg : String)
deriving Repr, DecidableEq

/-- Does `pat` occur at the head of `s`? -/
def startsWithL (pat s : List Char) : Bool :=
  match pat, s with
  | [], _ => true
  | _ :: _, [] => false
  | p :: ps, c :: cs => p == c && startsWithL ps cs

/-- Does `pat` occur contiguously inside `s` (Python `sub in str`)? -/
def containsSub (pat s : List Char) : Bool :=
  match s with
  | [] => pat.isEmpty
  | _ :: cs => startsWithL pat s || containsSub pat cs

/-- Model of Python `key in data` on a JSON-loaded value: key test on
dicts, membership on lists, substring test on strings, and a `TypeError`
on `None`/booleans/numbers. -/
def pyContains (key : String) : JValue → Except PyExn Bool
  | .obj fields => .ok (fields.any (·.1 == key))
  | .arr xs =>
      .ok (xs.any fun v => match v with | .str s => s == key | _ => false)
  | .str s => .ok (containsSub key.data s.data)
  | .null => .error (.typeError "argument of type NoneType is not iterable")
  | .bool _ => .error (.typeError "argument of type bool is not iterable")
  | .num _ => .error (.typeError "argument of type int is not iterable")

/-- Model of Python `data[key]` on a JSON-loaded value: dict lookup (JSON
objects have unique keys), and a `TypeError` on every other shape. -/
def pySubscript (v : JValue) (key : String) : Except PyExn JValue :=
  match v with
  | .obj fields =>
      match fields.lookup key with
      | some x => .ok x
      | none => .error (.keyError key)
  | .arr _ => .error (.typeError "list indices must be integers or slices, not str")
  | .str _ => .error (.typeError "string indices must be integers")
  | .null => .error (.typeError "NoneType object is not subscriptable")
  | .bool _ => .error (.typeError "bool object is not subscriptable")
  | .num _ => .error (.typeError "int object is not subscriptable")

/-- Read of `d.get(k, "")` (and `(d.get(k) or "")`) for a string field:
missing, null, or non-string values read as `""`. -/
def fieldStr (fs : List (String × JValue)) (k : String) : String :=
  match fs.lookup k with
  | some (.str s) => s
  | _ => ""

/-- Read of `d.get(k, [])` for a list field: missing or non-list values
read as `[]`. -/
def fieldArr (fs : List (String × JValue)) (k : String) : List JValue :=
  match fs.lookup k with
  | some (.arr vs) => vs
  | _ => []

mutual

/-- Typed read of an OSCAL part from raw JSON (non-dict shapes read as an
empty part). -/
def readPart : JValue → Part
  | .obj fs => Part.mk (fieldStr fs "name") (fieldStr fs "prose") (fieldParts fs)
  | _ => Part.mk "" "" []

/-- Scan of an object's fields for `parts`. -/
def fieldParts : List (String × JValue) → List Part
  | [] => []
  | (k, v) :: rest => if k = "parts" then readPartArr v else fieldParts rest

/-- Parts held in a raw JSON array. -/
def readPartArr : JValue → List Part
  | .arr vs => readPartList vs
  | _ => []

/-- Element-wise part read. -/
def readPartList : List JValue → List Part
  | [] => []
  | v :: vs => readPart v :: readPartList vs

end

mutual

/-- Typed read of an OSCAL control from raw JSON. -/
def readControl : JValue → Control
  | .obj fs =>
      Control.mk (fieldStr fs "id") (fieldStr fs "title") (fieldParts fs) (fieldControls fs)
  | _ => Control.mk "" "" [] []

/-- Scan of an object's fields for `controls`. -/
def fieldControls : List (String × JValue) → List Control
  | [] => []
  | (k, v) :: rest => if k = "controls" then readControlArr v else fieldControls rest

/-- Controls held in a raw JSON array. -/
def readControlArr : JValue → List Control
  | .arr vs => readControlList vs
  | _ => []

/-- Element-wise control read. -/
def readControlList : List JValue → List Control
  | [] => []
  | v :: vs => readControl v :: readControlList vs

end

/-- Typed read of a catalog group (`group.get("controls", [])`). -/
def readGroup (v : JValue) : CatGroup :=
  match v with
  | .obj fs => ⟨fieldControls fs⟩
  | _ => ⟨[]⟩

/-- Typed read of a catalog (`catalog.get("groups", [])`). -/
def readCatalog (v : JValue) : Catalog :=
  match v with
  | .obj fs => ⟨(fieldArr fs "groups").map readGroup⟩
  | _ => ⟨[]⟩

/-- Typed read of an include-controls entry (`ic.get("with-ids", [])`;
only string ids are kept). -/
def readIC (v : JValue) : IncludeControls :=
  match v with
  | .obj fs => ⟨(fieldArr fs "with-ids").filterMap fun w =>
      match w with | .str s => some s | _ => none⟩
  | _ => ⟨[]⟩

/-- Typed read of a profile import (`imp.get("include-controls", [])`). -/
def readImport (v : JValue) : ProfImport :=
  match v with
  | .obj fs => ⟨(fieldArr fs "include-controls").map readIC⟩
  | _ => ⟨[]⟩

/-- Typed read of a profile (`profile.get("metadata", {}).get("title",
"Unknown Profile")` and `profile.get("imports", [])`). -/
def readProfile (v : JValue) : Profile :=
  match v with
  | .obj fs =>
      ⟨(match fs.lookup "metadata" with
        | some (.obj mfs) =>
            (match mfs.lookup "title" with
             | some (.str t) => some t
             | _ => none)
        | _ => none),
       (fieldArr fs "imports").map readImport⟩
  | _ => ⟨none, []⟩

/-- Extraction failure signals of the OSCAL extractor, as seen by
`_normalize_file`: the two signals its `except` clauses catch, plus
exceptions that escape uncaught. -/
inductive ExtractErr where
  | unsupportedOscal (msg : String)
  | runtimeError (msg : String)
  | uncaught (e : PyExn)
deriving Repr, DecidableEq

/-- Model of `_extract_oscal_json` (lines 254-269): a parse failure raises
`RuntimeError`; then the top level is dispatched with Python's `in` and
`[]` operators, whose `TypeError`s nothing catches; a value with neither
key raises `_UnsupportedOscalType`. -/
def extract_oscal_json (fileName : String) (parsed : Except String JValue) :
    Except ExtractErr (List Sec) :=
  match parsed with
  | .error exc => .error (.runtimeError ("JSON parse failed: " ++ exc))
  | .ok data =>
    match pyContains "catalog" data with
    | .error e => .error (.uncaught e)
    | .ok true =>
        match pySubscript data "catalog" with
        | .error e => .error (.uncaught e)
        | .ok v => .ok (extract_catalog (readCatalog v))
    | .ok false =>
        match pyContains "profile" data with
        | .error e => .error (.uncaught e)
        | .ok true =>
            match pySubscript data "profile" with
            | .error e => .error (.uncaught e)
            | .ok v => .ok (extract_profile (readProfile v))
        | .ok false =>
            .error (.unsupportedOscal
              ("not a recognized OSCAL catalog or profile: " ++ fileName))

/-! ## Output writer (`_write_json`, lines 303-318) -/

/-- Metadata triple threaded to the writers. -/
structure Meta where
  source_file : String
  framework : String
  extracted_at : String
deriving Repr, DecidableEq

/-- JSON artifact payload built by `_write_json`. -/
structure JsonPayload where
  source_file : String
  framework : String
  extracted_at : String
  sections : List Sec
  full_text : String
deriving Repr, DecidableEq

/-- Model of `_write_json`'s payload: the section array verbatim plus
`full_text`, the contents joined by a blank-line separator. -/
def write_json (sections : List Sec) (m : Meta) : JsonPayload :=
  ⟨m.source_file, m.framework, m.extracted_at, sections,
   pyJoin "\n\n" (sections.map (·.content))⟩

/-- Serialization of one section into the artifact's JSON. -/
def secToJson (s : Sec) : JValue :=
  .obj [("heading", .str s.heading), ("level", .num (Int.ofNat s.level)),
        ("content", .str s.content)]

/-- Serialization of the payload into the artifact's JSON object. -/
def payloadToJson (p : JsonPayload) : JValue :=
  .obj [("source_file", .str p.source_file), ("framework", .str p.framework),
        ("extracted_at", .str p.extracted_at),
        ("sections", .arr (p.sections.map secToJson)),
        ("full_text", .str p.full_text)]

/-- Deserialization of one section from a produced artifact. -/
def secFromJson (v : JValue) : Option Sec :=
  match v with
  | .obj fs =>
    match fs.lookup "heading", fs.lookup "level", fs.lookup "content" with
    | some (.str h), some (.num l), some (.str c) =>
        if l < 0 then none else some ⟨h, l.toNat, c⟩
    | _, _, _ => none
  | _ => none

/-- Element-wise deserialization of a section array (failing on the first
malformed entry). -/
def secsFromJsonList : List JValue → Option (List Sec)
  | [] => some []
  | v :: vs =>
      match secFromJson v, secsFromJsonList vs with
      | some s, some ss => some (s :: ss)
      | _, _ => none

/-- Deserialization of a produced artifact's `sections` array. -/
def secsFromJson (v : JValue) : Option (List Sec) :=
  match v with
  | .arr vs => secsFromJsonList vs
  | _ => none

/-! ## Orchestration (`_normalize_file` lines 326-376, `normalize_all`
lines 384-429)

A source file is modelled with its name, extension, extraction-relevant
payload, the existence of its two destination artifacts, and whether
writing them would succeed.  `normalize_all`'s walk is modelled over the
already-enumerated list of eligible files (enumeration itself — skipping
non-files, dotfiles, ignored names and missing framework subdirs — is pure
filesystem traversal). -/

/-- Extraction-relevant content of a source file, per format.  For HTML
the `Except` carries a `read_text` failure (caught as `OSError` and
re-raised as `RuntimeError`); for PDF an open/read failure; for JSON a
parse failure. -/
inductive FilePayload where
  | pdf (doc : Except String (List String))
  | html (readRes : Except String (List Html))
  | jsonDoc (parsed : Except String JValue)
  | rawFile
deriving Repr

/-- Source file together with its destination-artifact state. -/
structure SourceFile where
  name : String
  ext : String
  stem : String
  payload : FilePayload
  mdExists : Bool
  jsonExists : Bool
  writeOk : Bool
deriving Repr

/-- Extension sets of normalizer.py lines 30-36. -/
def PDF_EXTENSIONS : List String := [".pdf"]

/-- HTML extensions. -/
def HTML_EXTENSIONS : List String := [".html", ".htm"]

/-- JSON extensions. -/
def JSON_EXTENSIONS : List String := [".json"]

/-- Extensions the normalizer handles. -/
def SUPPORTED_EXTENSIONS : List String :=
  PDF_EXTENSIONS ++ HTML_EXTENSIONS ++ JSON_EXTENSIONS

/-- Extensions present in source dirs but intentionally skipped. -/
def KNOWN_UNSUPPORTED : List String :=
  [".zip", ".doc", ".docx", ".xlsx", ".xls", ".xml"]

/-- Format dispatch of the `try` block at lines 352-358 (a payload that
does not match the extension cannot arise for a really-read file and is
mapped to an extraction error). -/
def dispatchExtract (f : SourceFile) : Except ExtractErr (List Sec) :=
  if pyLower f.ext ∈ PDF_EXTENSIONS then
    match f.payload with
    | .pdf doc =>
        (match extract_pdf doc with
         | .error m => .error (.runtimeError m)
         | .ok secs => .ok secs)
    | _ => .error (.runtimeError "payload does not match extension")
  else if pyLower f.ext ∈ JSON_EXTENSIONS then
    match f.payload with
    | .jsonDoc parsed => extract_oscal_json f.name parsed
    | _ => .error (.runtimeError "payload does not match extension")
  else
    match f.payload with
    | .html (.error exc) =>
        .error (.runtimeError ("Could not read " ++ f.name ++ ": " ++ exc))
    | .html (.ok doc) => .ok (extract_html doc f.stem)
    | _ => .error (.runtimeError "payload does not match extension")

/-- Outcome of `_normalize_file` plus the facts the claims need: whether an
extractor ran and the destination-artifact state afterwards. -/
structure NFRes where
  status : String
  msg : String
  didExtract : Bool
  newMd : Bool
  newJson : Bool
deriving Repr, DecidableEq

/-- Model of `_normalize_file` (lines 326-376).  The checks run in source
order: known-unsupported extension, unsupported extension, both-artifacts
skip, extraction (catching only `_UnsupportedOscalType` and
`RuntimeError`), empty-section check, write.  An exception of any other
type escapes as `Except.error`. -/
def normalize_file (f : SourceFile) (force : Bool) : Except PyExn NFRes :=
  let ext := pyLower f.ext
  if ext ∈ KNOWN_UNSUPPORTED then
    .ok ⟨"unsupported", f.name, false, f.mdExists, f.jsonExists⟩
  else if ext ∉ SUPPORTED_EXTENSIONS then
    .ok ⟨"unsupported", f.name, false, f.mdExists, f.jsonExists⟩
  else if force = false ∧ f.mdExists ∧ f.jsonExists then
    .ok ⟨"skipped", f.name, false, f.mdExists, f.jsonExists⟩
  else
    match dispatchExtract f with
    | .error (.unsupportedOscal _) =>
        .ok ⟨"unsupported", f.name, true, f.mdExists, f.jsonExists⟩
    | .error (.runtimeError m) => .ok ⟨"error", m, true, f.mdExists, f.jsonExists⟩
    | .error (.uncaught e) => .error e
    | .ok sections =>
        if sections = [] then
          .ok ⟨"error", "no text content extracted", true, f.mdExists, f.jsonExists⟩
        else if f.writeOk then .ok ⟨"processed", f.name, true, true, true⟩
        else .ok ⟨"error", "write failed", true, f.mdExists, f.jsonExists⟩

/-- Aggregate result of one run (the `NormalizeResult` dataclass,
lines 42-51). -/
structure NormalizeResult where
  processed : List String
  skipped : List String
  errors : List (String × String)
  unsupported : List String
deriving Repr, DecidableEq

/-- Derived total (`processed + skipped + errors`; unsupported excluded,
as in the source). -/
def NormalizeResult.total (r : NormalizeResult) : Nat :=
  r.processed.length + r.skipped.length + r.errors.length

/-- Empty aggregate. -/
def emptyResult : NormalizeResult := ⟨[], [], [], []⟩

/-- Bucket routing of lines 420-427. -/
def recordOutcome (acc : NormalizeResult) (fname : String) (res : NFRes) :
    NormalizeResult :=
  if res.status = "processed" then { acc with processed := acc.processed ++ [res.msg] }
  else if res.status = "skipped" then { acc with skipped := acc.skipped ++ [res.msg] }
  else if res.status = "unsupported" then
    { acc with unsupported := acc.unsupported ++ [res.msg] }
  else { acc with errors := acc.errors ++ [(fname, res.msg)] }

/-- Model of the per-file loop of `normalize_all` (lines 409-427) over the
enumerated eligible files: each file's outcome is recorded and the walk
continues, but an exception `_normalize_file` does not catch propagates
and aborts the whole run. -/
def normalize_all : List SourceFile → Bool → NormalizeResult → Except PyExn NormalizeResult
  | [], _, acc => .ok acc
  | f :: fs, force, acc =>
      match normalize_file f force with
      | .error e => .error e
      | .ok r => normalize_all fs force (recordOutcome acc f.name r)

/-! ## Specification-side definitions

These re-state parts of the spec's wording independently of the embedded
code, to be proved equal to (or satisfied by) the embedding. -/

mutual

/-- Spec wording for `_collect_prose` (§4.4): all descendant prose,
depth-first, each piece stripped, empty pieces dropped. -/
def prosePreorder : Part → List String
  | .mk _ prose parts =>
      (if pyStrip prose = "" then [] else [pyStrip prose]) ++ prosePreorderList parts

/-- Forest version of `prosePreorder`. -/
def prosePreorderList : List Part → List String
  | [] => []
  | p :: ps => prosePreorder p ++ prosePreorderList ps

end

/-- Spec wording for the profile family keys (§4.4): the distinct families
of the referenced ids, sorted lexicographically. -/
def specFams (p : Profile) : List String :=
  pySorted strLeB ((allIds p).map famOf).dedup

/-- Spec wording for the per-family sections (§4.4): one level-2 section
per family in sorted key order, content the comma-joined ids of that
family in post-sort order. -/
def specFamilySections (p : Profile) : List Sec :=
  (specFams p).map fun k =>
    ⟨k ++ " Controls", 2,
     pyJoin ", " ((pySorted strLeB (allIds p)).filter fun c => famOf c == k)⟩

/-- Occurrence of `t` at two (disjoint) places inside `s`. -/
def occursTwice (t s : String) : Prop :=
  ∃ a b c : String, s = a ++ t ++ b ++ t ++ c

/-- Line well-formedness maintained by the HTML walk accumulator: visible
texts are non-empty and strip-fixed. -/
def goodLine (s : String) : Prop := s ≠ "" ∧ pyStrip s = s

/-! ## Concrete inputs used by the claims' examples and witnesses -/

/-- Profile of spec §8: imports referencing `["ac-2", "ac-1", "au-3"]`. -/
def exProfile : Profile := ⟨some "P", [⟨[⟨["ac-2", "ac-1", "au-3"]⟩]⟩]⟩

/-- Catalog control of spec §8: id `ac-1` with statement and guidance. -/
def exControl : Control :=
  .mk "ac-1" "Policy and Procedures"
    [.mk "statement" "Do X." [], .mk "guidance" "Additional guidance." []] []

/-- Parsed DOM of the spec §8 markup
`<main><h1>Intro</h1><p>Hello</p><h2>Details</h2><p>World</p></main>`. -/
def exDom : List Html :=
  [.elem "main" []
    [.elem "h1" [] [.text "Intro"], .elem "p" [] [.text "Hello"],
     .elem "h2" [] [.text "Details"], .elem "p" [] [.text "World"]]]

/-- Catalog holding one group with the spec §8 example control. -/
def exCatalog : Catalog := ⟨[⟨[exControl]⟩]⟩

/-- JSON source file whose parsed content is the JSON literal `null`. -/
def nullJsonFile : SourceFile :=
  ⟨"bad.json", ".json", "bad", .jsonDoc (.ok .null), false, false, true⟩

/-- JSON source file whose top level is an object with neither `catalog`
nor `profile` key. -/
def noKeyJsonFile : SourceFile :=
  ⟨"a.json", ".json", "a", .jsonDoc (.ok (.obj [("x", .num 1)])), false, false, true⟩

/-- JSON source file whose parsed content is the JSON literal `5`. -/
def numJsonFile : SourceFile :=
  ⟨"b.json", ".json", "b", .jsonDoc (.ok (.num 5)), false, false, true⟩

/-- Fresh one-page PDF source file (no artifacts yet, write succeeds). -/
def pdfOkFile : SourceFile :=
  ⟨"d.pdf", ".pdf", "d", .pdf (.ok ["hello"]), false, false, true⟩

/-- PDF source file whose both destination artifacts already exist. -/
def skipPdfFile : SourceFile :=
  ⟨"d.pdf", ".pdf", "d", .pdf (.ok ["hello"]), true, true, true⟩

/-- Inner nested block-content element of the C10 witness markup. -/
def wInner : Html := .elem "p" [] [.text "W"]

/-- Outer block-content element of the C10 witness markup. -/
def wOuter : Html := .elem "li" [] [wInner]

/-- Parsed DOM of `<main><li><p>W</p></li></main>`. -/
def wDom : List Html := [.elem "main" [] [wOuter]]

/-- Parsed DOM of `<main><li><h2>H</h2><p>W</p></li></main>`: a heading
between the outer `<li>` and the inner `<p>`. -/
def cxDom : List Html :=
  [.elem "main" []
    [.elem "li" [] [.elem "h2" [] [.text "H"], .elem "p" [] [.text "W"]]]]

/-- Decidable equality for `Except`, used to evaluate the orchestration
model on concrete files. -/
instance exceptDecEq {e a : Type} [DecidableEq e] [DecidableEq a] :
    DecidableEq (Except e a) := fun x y =>
  match x, y with
  | .error u, .error v =>
      if h : u = v then .isTrue (by rw [h])
      else .isFalse (by intro he; cases he; exact h rfl)
  | .ok u, .ok v =>
      if h : u = v then .isTrue (by rw [h])
      else .isFalse (by intro he; cases he; exact h rfl)
  | .error _, .ok _ => .isFalse (by intro h; cases h)
  | .ok _, .error _ => .isFalse (by intro h; cases h)

/-! # Basic string lemmas -/

theorem str_eq_empty_iff {s : String} : s = "" ↔ s.data = [] :=
  ⟨fun h => h ▸ rfl, fun h => String.ext h⟩

theorem str_append_data (a b : String) : (a ++ b).data = a.data ++ b.data :=
  String.data_append a b

theorem str_append_eq_empty {a b : String} : a ++ b = "" ↔ a = "" ∧ b = "" := by
  rw [str_eq_empty_iff, str_append_data, List.append_eq_nil,
    ← str_eq_empty_iff, ← str_eq_empty_iff]

theorem str_append_ne_empty_left {a b : String} (h : a ≠ "") : a ++ b ≠ "" := by
  intro hab
  exact h (str_append_eq_empty.mp hab).1

theorem str_append_ne_empty_right {a b : String} (h : b ≠ "") : a ++ b ≠ "" := by
  intro hab
  exact h (str_append_eq_empty.mp hab).2

/-! # Claims C1 and C3: the OSCAL top-level dispatch on non-dict JSON

`_extract_oscal_json` probes the parsed value with `"catalog" in data`;
when the top level is `null`, a boolean or a number this raises a
`TypeError` that neither `_normalize_file` (which catches only
`_UnsupportedOscalType` and `RuntimeError`) nor `normalize_all` catches,
so the whole run aborts with no bucket recorded for the file. -/

/-- C1: the claim states that no per-file failure aborts the run and that
this holds for every parseable JSON input whatever its top level is.  The
code violates it: a source tree containing one JSON file whose entire
content is the JSON literal `null` makes the run abort with an uncaught
`TypeError` instead of recording a bucket for the file. -/
theorem claim_C1_run_aborts_on_null_json :
    normalize_all [nullJsonFile] false emptyResult
      = .error (.typeError "argument of type NoneType is not iterable") := by
  decide

/-- C3: the claim states every successfully-parsed JSON file without
`catalog`/`profile` keys is classified unsupported, never an error.  For
an object top level the code indeed records unsupported, but for the
keyless top level `5` it raises an uncaught `TypeError` that aborts the
run instead of classifying the file. -/
theorem claim_C3_keyless_json_classification :
    normalize_file noKeyJsonFile false
      = .ok ⟨"unsupported", "a.json", true, false, false⟩
    ∧ normalize_file numJsonFile false
      = .error (.typeError "argument of type int is not iterable") := by
  exact ⟨by decide, by decide⟩

/-! # Claim C9: JSON writer round trip -/

theorem secFromJson_secToJson (s : Sec) : secFromJson (secToJson s) = some s := by
  simp [secFromJson, secToJson, List.lookup]

theorem secsFromJson_map (l : List Sec) :
    secsFromJson (.arr (l.map secToJson)) = some l := by
  induction l with
  | nil => rfl
  | cons x xs ih =>
      simp only [secsFromJson] at ih ⊢
      simp [secsFromJsonList, secFromJson_secToJson, ih]

/-- C9: the JSON writer embeds the section array verbatim and derives
`full_text` as the blank-line join of the contents; deserializing a
produced artifact's sections array and re-serializing under the same
metadata reproduces the same JSON content exactly. -/
theorem claim_C9_json_round_trip :
    (∀ secs m, (write_json secs m).sections = secs
      ∧ (write_json secs m).full_text = pyJoin "\n\n" (secs.map Sec.content))
  ∧ (∀ secs m, pySubscript (payloadToJson (write_json secs m)) "sections"
        = .ok (.arr (secs.map secToJson))
      ∧ secsFromJson (.arr (secs.map secToJson)) = some secs)
  ∧ (∀ secs m secs2,
      secsFromJson (.arr ((write_json secs m).sections.map secToJson)) = some secs2
      → payloadToJson (write_json secs2 m) = payloadToJson (write_json secs m)) := by
  refine ⟨fun secs m => ⟨rfl, rfl⟩, fun secs m => ⟨?_, secsFromJson_map secs⟩, ?_⟩
  · rfl
  · intro secs m secs2 h
    have : (write_json secs m).sections = secs := rfl
    rw [this, secsFromJson_map] at h
    cases h
    rfl

/-- Witness for C9 at a concrete section list and metadata triple. -/
theorem claim_C9_witness :
    secsFromJson (.arr ((write_json [⟨"h", 1, "c"⟩] ⟨"s", "f", "t"⟩).sections.map secToJson))
      = some [⟨"h", 1, "c"⟩]
    ∧ payloadToJson (write_json [⟨"h", 1, "c"⟩] ⟨"s", "f", "t"⟩)
      = payloadToJson (write_json [⟨"h", 1, "c"⟩] ⟨"s", "f", "t"⟩) :=
  ⟨by decide,
   claim_C9_json_round_trip.2.2 [⟨"h", 1, "c"⟩] ⟨"s", "f", "t"⟩ [⟨"h", 1, "c"⟩] (by decide)⟩

/-! # Claim C7: PDF extraction -/

theorem pdfSectionsFrom_len (pages : List String) :
    ∀ k, (pdfSectionsFrom k pages).length
      = pages.countP fun t => decide (pyStrip t ≠ "") := by
  induction pages with
  | nil => intro k; rfl
  | cons p ps ih =>
      intro k
      by_cases h : pyStrip p = "" <;>
        simpa [pdfSectionsFrom, List.enumFrom, List.filterMap_cons, List.countP_cons, h]
          using ih (k + 1)

theorem pdfSectionsFrom_heads (pages : List String) :
    ∀ k, (pdfSectionsFrom k pages).map Sec.heading
      = (keptNumsFrom k pages).map fun n => "Page " ++ toString n := by
  induction pages with
  | nil => intro k; rfl
  | cons p ps ih =>
      intro k
      by_cases h : pyStrip p = "" <;>
        simpa [pdfSectionsFrom, keptNumsFrom, List.enumFrom, List.filterMap_cons, h]
          using ih (k + 1)

theorem pdfSectionsFrom_levels (pages : List String) :
    ∀ k, (pdfSectionsFrom k pages).map Sec.level
      = List.replicate (pdfSectionsFrom k pages).length 1 := by
  induction pages with
  | nil => intro k; rfl
  | cons p ps ih =>
      intro k
      by_cases h : pyStrip p = "" <;>
        simpa [pdfSectionsFrom, List.enumFrom, List.filterMap_cons, h, List.replicate_succ]
          using ih (k + 1)

theorem pdfSectionsFrom_contents (pages : List String) :
    ∀ k, (pdfSectionsFrom k pages).map Sec.content
      = (pages.map pyStrip).filter fun t => decide (t ≠ "") := by
  induction pages with
  | nil => intro k; rfl
  | cons p ps ih =>
      intro k
      by_cases h : pyStrip p = "" <;>
        simpa [pdfSectionsFrom, List.enumFrom, List.filterMap_cons, List.filter_cons, h]
          using ih (k + 1)

theorem keptNumsFrom_ge (pages : List String) :
    ∀ k n, n ∈ keptNumsFrom k pages → k ≤ n := by
  induction pages with
  | nil => intro k n h; simp [keptNumsFrom, List.enumFrom] at h
  | cons p ps ih =>
      intro k n h
      simp only [keptNumsFrom, List.enumFrom, List.filterMap_cons] at h
      by_cases hp : pyStrip p = ""
      · rw [if_neg (by simpa using hp)] at h
        have := ih (k + 1) n (by simpa [keptNumsFrom] using h)
        omega
      · rw [if_pos (by simpa using hp)] at h
        rcases List.mem_cons.mp h with h | h
        · omega
        · have := ih (k + 1) n (by simpa [keptNumsFrom] using h)
          omega

theorem keptNumsFrom_pairwise (pages : List String) :
    ∀ k, List.Pairwise (· < ·) (keptNumsFrom k pages) := by
  induction pages with
  | nil => intro k; simp [keptNumsFrom, List.enumFrom]
  | cons p ps ih =>
      intro k
      simp only [keptNumsFrom, List.enumFrom, List.filterMap_cons]
      by_cases hp : pyStrip p = ""
      · rw [if_neg (by simpa using hp)]
        simpa [keptNumsFrom] using ih (k + 1)
      · rw [if_pos (by simpa using hp)]
        refine List.pairwise_cons.mpr ⟨fun n hn => ?_, by simpa [keptNumsFrom] using ih (k + 1)⟩
        have := keptNumsFrom_ge ps (k + 1) n (by simpa [keptNumsFrom] using hn)
        omega

/-- C7: PDF extraction yields exactly one section per page with non-empty
trimmed text, in strictly increasing order of original 1-based page
number, with heading `"Page <n>"`, level 1 and the trimmed text as
content; any open/read failure aborts the whole file with a single
wrapped error. -/
theorem claim_C7_pdf_extraction :
    (∀ exc, extract_pdf (.error exc) = .error ("pymupdf failed: " ++ exc))
  ∧ (∀ pages, extract_pdf (.ok pages) = .ok (pdfSpecSections pages))
  ∧ (∀ pages, (pdfSpecSections pages).length
      = pages.countP fun t => decide (pyStrip t ≠ ""))
  ∧ (∀ pages, (pdfSpecSections pages).map Sec.heading
      = (pdfKeptPageNums pages).map fun n => "Page " ++ toString n)
  ∧ (∀ pages, (pdfSpecSections pages).map Sec.level
      = List.replicate (pdfSpecSections pages).length 1)
  ∧ (∀ pages, (pdfSpecSections pages).map Sec.content
      = (pages.map pyStrip).filter fun t => decide (t ≠ ""))
  ∧ (∀ pages, List.Pairwise (· < ·) (pdfKeptPageNums pages)) := by
  refine ⟨fun exc => rfl, fun pages => rfl, fun pages => ?_, fun pages => ?_,
    fun pages => ?_, fun pages => ?_, fun pages => ?_⟩
  · exact pdfSectionsFrom_len pages 1
  · exact pdfSectionsFrom_heads pages 1
  · exact pdfSectionsFrom_levels pages 1
  · exact pdfSectionsFrom_contents pages 1
  · exact keptNumsFrom_pairwise pages 1

/-! # pyJoin algebra -/

theorem str_append_assoc (a b c : String) : a ++ b ++ c = a ++ (b ++ c) :=
  String.ext (by simp only [str_append_data, List.append_assoc])

theorem pyJoin_cons_ne (sep x : String) {r : List String} (h : r ≠ []) :
    pyJoin sep (x :: r) = x ++ sep ++ pyJoin sep r := by
  cases r with
  | nil => exact absurd rfl h
  | cons y ys => rfl

theorem pyJoin_append_ne (sep : String) {l1 l2 : List String}
    (h1 : l1 ≠ []) (h2 : l2 ≠ []) :
    pyJoin sep (l1 ++ l2) = pyJoin sep l1 ++ sep ++ pyJoin sep l2 := by
  induction l1 with
  | nil => exact absurd rfl h1
  | cons x l1 ih =>
      cases l1 with
      | nil =>
          simpa using pyJoin_cons_ne sep x h2
      | cons y l1 =>
          have hne : (y :: l1 : List String) ≠ [] := by simp
          have hne2 : (y :: l1 ++ l2 : List String) ≠ [] := by simp
          rw [List.cons_append, pyJoin_cons_ne sep x hne2, ih hne,
            pyJoin_cons_ne sep x hne]
          apply String.ext
          simp [str_append_data, List.append_assoc]

theorem pyJoin_eq_empty {sep : String} {l : List String}
    (hne : ∀ x ∈ l, x ≠ "") (h : pyJoin sep l = "") : l = [] := by
  cases l with
  | nil => rfl
  | cons x r =>
      cases r with
      | nil => exact absurd h (hne x (by simp))
      | cons y ys =>
          exfalso
          have : x ++ sep ++ pyJoin sep (y :: ys) = "" := h
          exact hne x (by simp) (str_append_eq_empty.mp (str_append_eq_empty.mp this).1).1

theorem pyJoin_collapse (sep : String) :
    ∀ (front : List String) {G : List String} (rest : List String), G ≠ [] →
      pyJoin sep (front ++ pyJoin sep G :: rest) = pyJoin sep (front ++ (G ++ rest)) := by
  intro front
  induction front with
  | nil =>
      intro G rest hG
      cases rest with
      | nil => simp [pyJoin]
      | cons r rs =>
          have hrr : (r :: rs : List String) ≠ [] := by simp
          rw [List.nil_append, List.nil_append, pyJoin_cons_ne sep _ hrr,
            pyJoin_append_ne sep hG hrr]
  | cons f front ih =>
      intro G rest hG
      have hne1 : (front ++ pyJoin sep G :: rest : List String) ≠ [] := by simp
      have hne2 : (front ++ (G ++ rest) : List String) ≠ [] := by
        simp [hG]
      rw [List.cons_append, pyJoin_cons_ne sep f hne1, List.cons_append,
        pyJoin_cons_ne sep f hne2, ih rest hG]

/-! # Claim C5: catalog control extraction -/

mutual

theorem prosePreorder_ne (p : Part) : ∀ s ∈ prosePreorder p, s ≠ "" := by
  match p with
  | .mk nm prose parts =>
      intro s hs
      simp only [prosePreorder, List.mem_append] at hs
      rcases hs with hs | hs
      · by_cases h : pyStrip prose = ""
        · simp [h] at hs
        · rw [if_neg h] at hs
          simpa [List.mem_singleton.mp hs] using h
      · exact prosePreorderList_ne parts s hs

theorem prosePreorderList_ne (ps : List Part) : ∀ s ∈ prosePreorderList ps, s ≠ "" := by
  match ps with
  | [] => intro s hs; simp [prosePreorderList] at hs
  | q :: qs =>
      intro s hs
      simp only [prosePreorderList, List.mem_append] at hs
      rcases hs with hs | hs
      · exact prosePreorder_ne q s hs
      · exact prosePreorderList_ne qs s hs

end

mutual

theorem collect_prose_eq (p : Part) :
    collect_prose p = pyJoin "\n" (prosePreorder p) := by
  match p with
  | .mk nm prose parts =>
      show pyJoin "\n" ((if pyStrip prose = "" then [] else [pyStrip prose]) ++ collectSubs parts)
        = pyJoin "\n" (prosePreorder (.mk nm prose parts))
      rw [collectSubs_eq parts]
      rfl

theorem collectSubs_eq (ps : List Part) :
    ∀ front, pyJoin "\n" (front ++ collectSubs ps)
      = pyJoin "\n" (front ++ prosePreorderList ps) := by
  match ps with
  | [] => intro front; rfl
  | q :: qs =>
      intro front
      have hq := collect_prose_eq q
      by_cases hcq : collect_prose q = ""
      · have hG : prosePreorder q = [] :=
          pyJoin_eq_empty (prosePreorder_ne q) (hq ▸ hcq)
        show pyJoin "\n" (front ++ if collect_prose q = "" then collectSubs qs
            else collect_prose q :: collectSubs qs) = _
        rw [if_pos hcq, collectSubs_eq qs front]
        simp only [prosePreorderList, hG, List.nil_append]
      · have hG : prosePreorder q ≠ [] := by
          intro hnil
          exact hcq (by rw [hq, hnil]; rfl)
        show pyJoin "\n" (front ++ if collect_prose q = "" then collectSubs qs
            else collect_prose q :: collectSubs qs) = _
        rw [if_neg hcq]
        have step1 : front ++ collect_prose q :: collectSubs qs
            = (front ++ [collect_prose q]) ++ collectSubs qs := by simp
        rw [step1, collectSubs_eq qs (front ++ [collect_prose q])]
        have step2 : (front ++ [collect_prose q]) ++ prosePreorderList qs
            = front ++ collect_prose q :: prosePreorderList qs := by simp
        rw [step2, hq, pyJoin_collapse "\n" front (prosePreorderList qs) hG]
        simp only [prosePreorderList, List.append_assoc]

end

theorem partBlocks_eq (ps : List Part) :
    partBlocks ps = ps.filterMap fun p =>
      if partName p ∈ ["statement", "guidance"] ∧ collect_prose p ≠ "" then
        some ("**" ++ pyTitle (partName p) ++ "**\n" ++ collect_prose p)
      else none := by
  induction ps with
  | nil => rfl
  | cons p ps ih =>
      show ((if partName p ∈ ["statement", "guidance"] then
          (let prose := collect_prose p
           if prose ≠ "" then ["**" ++ pyTitle (partName p) ++ "**\n" ++ prose] else [])
         else []) ++ partBlocks ps) = _
      rw [List.filterMap_cons, ih]
      by_cases h1 : partName p ∈ ["statement", "guidance"]
      · by_cases h2 : collect_prose p = "" <;> simp [h1, h2]
      · simp [h1]

theorem partBlocks_filter (ps : List Part) :
    partBlocks (ps.filter fun p => decide (partName p ∈ ["statement", "guidance"]))
      = partBlocks ps := by
  induction ps with
  | nil => rfl
  | cons p ps ih =>
      rw [List.filter_cons]
      by_cases h : partName p ∈ ["statement", "guidance"]
      · simp only [h, decide_eq_true_eq, if_true]
        show (if partName p ∈ ["statement", "guidance"] then _ else []) ++
            partBlocks (List.filter _ ps) = _
        rw [ih]
        rfl
      · simp only [h, decide_eq_true_eq, if_false]
        rw [ih]
        show partBlocks ps
          = (if partName p ∈ ["statement", "guidance"] then _ else []) ++ partBlocks ps
        rw [if_neg h, List.nil_append]

/-- C5: for a catalog control, the heading is the uppercased id, a colon
and the title (the title alone when the id is empty); prose is collected
depth-first from parts named exactly `statement` or `guidance` only, each
rendered as a labelled block and joined by blank lines; a section is
emitted at the caller-supplied level only when both heading and content
are non-empty, followed by the enhancement controls' sections at the next
level; and the spec's `ac-1` example extracts exactly as stated. -/
theorem claim_C5_catalog_control_extraction :
    extract_control_sections exControl 2
      = [⟨"AC-1: Policy and Procedures", 2,
          "**Statement**\nDo X.\n\n**Guidance**\nAdditional guidance."⟩]
  ∧ (∀ p : Part, collect_prose p = pyJoin "\n" (prosePreorder p))
  ∧ (∀ ps : List Part, partBlocks ps = ps.filterMap fun p =>
      if partName p ∈ ["statement", "guidance"] ∧ collect_prose p ≠ "" then
        some ("**" ++ pyTitle (partName p) ++ "**\n" ++ collect_prose p)
      else none)
  ∧ (∀ ps : List Part,
      partBlocks (ps.filter fun p => decide (partName p ∈ ["statement", "guidance"]))
        = partBlocks ps)
  ∧ (∀ (id title : String) (parts : List Part) (controls : List Control) (level : Nat),
      extract_control_sections (.mk id title parts controls) level
        = (if (if pyUpper id ≠ "" then pyUpper id ++ ": " ++ title else title) ≠ ""
              ∧ pyJoin "\n\n" (partBlocks parts) ≠ "" then
            [⟨if pyUpper id ≠ "" then pyUpper id ++ ": " ++ title else title, level,
              pyJoin "\n\n" (partBlocks parts)⟩]
           else [])
          ++ extractControlList controls (level + 1)) :=
  ⟨by decide, collect_prose_eq, partBlocks_eq, partBlocks_filter,
   fun id title parts controls level => rfl⟩

/-! # Claim C6: HTML heading-delimited walk -/

/-- C6: the walk flushes the accumulator as a section exactly when its
joined, trimmed lines are non-empty, resetting to the heading's text and
rank; a content element appends its whitespace-collapsed text as one line
when non-empty; the final accumulator is flushed the same way; and the
spec's `<main>` example extracts exactly as stated. -/
theorem claim_C6_html_walk :
    extract_html exDom "x" = [⟨"Intro", 1, "Hello"⟩, ⟨"Details", 2, "World"⟩]
  ∧ (∀ (st : WalkSt) (e : Html), nameOf e ∈ HEADING_TAGS →
      step st e = ⟨st.sections ++ (if flushBody st ≠ "" then
          [⟨st.heading, st.level, flushBody st⟩] else []),
        getText " " e, rankOf (nameOf e), []⟩)
  ∧ (∀ (st : WalkSt) (e : Html), nameOf e ∉ HEADING_TAGS →
      step st e = if getText " " e ≠ "" then
          ⟨st.sections, st.heading, st.level, st.lines ++ [getText " " e]⟩ else st)
  ∧ (∀ (doc : List Html) (stem : String) (c : Html), chooseContainer doc = some c →
      extract_html doc stem = walkContainer stem c) := by
  refine ⟨by decide, fun st e h => ?_, fun st e h => ?_, fun doc stem c h => ?_⟩
  · simp only [step, if_pos h]
  · simp only [step, if_neg h]
  · simp only [extract_html, h]

/-- Witness for C6 at a concrete accumulator and heading element. -/
theorem claim_C6_witness :
    nameOf (Html.elem "h1" [] [.text "T"]) ∈ HEADING_TAGS
  ∧ step ⟨[], "d", 1, ["x"]⟩ (.elem "h1" [] [.text "T"])
      = ⟨[⟨"d", 1, "x"⟩], "T", 1, []⟩ :=
  ⟨by decide, claim_C6_html_walk.2.1 ⟨[], "d", 1, ["x"]⟩ (.elem "h1" [] [.text "T"]) (by decide)⟩

/-! # Claim C8: skip/force policy -/

theorem supported_not_known {s : String} (h : s ∈ SUPPORTED_EXTENSIONS) :
    s ∉ KNOWN_UNSUPPORTED := by
  simp only [SUPPORTED_EXTENSIONS, PDF_EXTENSIONS, HTML_EXTENSIONS, JSON_EXTENSIONS,
    List.cons_append, List.nil_append, List.mem_cons, List.not_mem_nil, or_false] at h
  rcases h with h | h | h | h <;> subst h <;> decide

theorem normalize_file_skip {f : SourceFile} (hs : pyLower f.ext ∈ SUPPORTED_EXTENSIONS)
    (hmd : f.mdExists = true) (hjson : f.jsonExists = true) :
    normalize_file f false = .ok ⟨"skipped", f.name, false, true, true⟩ := by
  unfold normalize_file
  rw [if_neg (supported_not_known hs), if_neg (not_not_intro hs),
    if_pos ⟨rfl, by rw [hmd], by rw [hjson]⟩, hmd, hjson]

/-- C8: a supported-extension file whose two destination artifacts both
exist is recorded as skipped with no extractor or writer invoked and the
artifact state unchanged when force is false; a file processed by a run
leaves both artifacts existing, so an unchanged second run without force
skips it; with force true extraction always re-executes and the file is
never skipped. -/
theorem claim_C8_skip_force_policy :
    (∀ f : SourceFile, pyLower f.ext ∈ SUPPORTED_EXTENSIONS →
      f.mdExists = true → f.jsonExists = true →
      normalize_file f false = .ok ⟨"skipped", f.name, false, true, true⟩)
  ∧ (∀ (f : SourceFile) (force : Bool) (r : NFRes),
      normalize_file f force = .ok r → r.status = "processed" →
      normalize_file { f with mdExists := r.newMd, jsonExists := r.newJson } false
        = .ok ⟨"skipped", f.name, false, true, true⟩)
  ∧ (∀ (f : SourceFile) (r : NFRes), pyLower f.ext ∈ SUPPORTED_EXTENSIONS →
      normalize_file f true = .ok r →
      r.didExtract = true ∧ r.status ≠ "skipped") := by
  refine ⟨fun f hs hmd hjson => normalize_file_skip hs hmd hjson,
    fun f force r h hst => ?_, fun f r hs h => ?_⟩
  · unfold normalize_file at h
    by_cases h1 : pyLower f.ext ∈ KNOWN_UNSUPPORTED
    · rw [if_pos h1] at h
      cases h
      exact absurd hst (by simp)
    · rw [if_neg h1] at h
      by_cases h2 : pyLower f.ext ∉ SUPPORTED_EXTENSIONS
      · rw [if_pos h2] at h
        cases h
        exact absurd hst (by simp)
      · rw [if_neg h2] at h
        by_cases h3 : force = false ∧ f.mdExists ∧ f.jsonExists
        · rw [if_pos h3] at h
          cases h
          exact absurd hst (by simp)
        · rw [if_neg h3] at h
          cases hd : dispatchExtract f with
          | error e =>
              cases e with
              | unsupportedOscal m =>
                  simp only [hd] at h
                  cases h
                  exact absurd hst (by simp)
              | runtimeError m =>
                  simp only [hd] at h
                  cases h
                  exact absurd hst (by simp)
              | uncaught e =>
                  simp only [hd] at h
                  exact absurd h (by simp)
          | ok secs =>
              simp only [hd] at h
              by_cases h4 : secs = []
              · rw [if_pos h4] at h
                cases h
                exact absurd hst (by simp)
              · rw [if_neg h4] at h
                by_cases h5 : f.writeOk = true
                · rw [if_pos h5] at h
                  cases h
                  exact normalize_file_skip (not_not.mp h2) rfl rfl
                · rw [if_neg h5] at h
                  cases h
                  exact absurd hst (by simp)
  · unfold normalize_file at h
    rw [if_neg (supported_not_known hs), if_neg (not_not_intro hs),
      if_neg (by simp)] at h
    cases hd : dispatchExtract f with
    | error e =>
        cases e with
        | unsupportedOscal m =>
            simp only [hd] at h
            cases h
            exact ⟨rfl, by simp⟩
        | runtimeError m =>
            simp only [hd] at h
            cases h
            exact ⟨rfl, by simp⟩
        | uncaught e =>
            simp only [hd] at h
            exact absurd h (by simp)
    | ok secs =>
        simp only [hd] at h
        by_cases h4 : secs = []
        · rw [if_pos h4] at h
          cases h
          exact ⟨rfl, by simp⟩
        · rw [if_neg h4] at h
          by_cases h5 : f.writeOk = true
          · rw [if_pos h5] at h
            cases h
            exact ⟨rfl, by simp⟩
          · rw [if_neg h5] at h
            cases h
            exact ⟨rfl, by simp⟩

/-- Witness for C8 at concrete PDF files: an already-normalized file is
skipped, a fresh file is processed and then skipped on the second run, and
force prevents skipping. -/
theorem claim_C8_witness :
    normalize_file skipPdfFile false = .ok ⟨"skipped", "d.pdf", false, true, true⟩
  ∧ normalize_file { pdfOkFile with mdExists := true, jsonExists := true } false
      = .ok ⟨"skipped", "d.pdf", false, true, true⟩
  ∧ ((⟨"processed", "d.pdf", true, true, true⟩ : NFRes).didExtract = true
      ∧ (⟨"processed", "d.pdf", true, true, true⟩ : NFRes).status ≠ "skipped") :=
  ⟨claim_C8_skip_force_policy.1 skipPdfFile (by decide) (by decide) (by decide),
   claim_C8_skip_force_policy.2.1 pdfOkFile false ⟨"processed", "d.pdf", true, true, true⟩
     (by decide) (by decide),
   claim_C8_skip_force_policy.2.2 pdfOkFile ⟨"processed", "d.pdf", true, true, true⟩
     (by decide) (by decide)⟩

/-! # Order properties of the string comparison and the insertion sort -/

theorem char_toNat_inj {a b : Char} (h : a.toNat = b.toNat) : a = b :=
  Char.ext (UInt32.ext (by simpa [Char.toNat] using h))

theorem listCharLe_total : ∀ as bs, (listCharLe as bs || listCharLe bs as) = true := by
  intro as
  induction as with
  | nil => intro bs; simp [listCharLe]
  | cons a as ih =>
      intro bs
      cases bs with
      | nil => simp [listCharLe]
      | cons b bs =>
          simp only [listCharLe]
          by_cases h1 : a.toNat < b.toNat
          · simp [h1]
          · by_cases h2 : b.toNat < a.toNat
            · simp [h1, h2]
            · simpa [h1, h2] using ih bs

theorem listCharLe_trans :
    ∀ as bs cs, listCharLe as bs = true → listCharLe bs cs = true →
      listCharLe as cs = true := by
  intro as
  induction as with
  | nil => intro bs cs h1 h2; rfl
  | cons a as ih =>
      intro bs cs h1 h2
      cases bs with
      | nil => simp [listCharLe] at h1
      | cons b bs =>
          cases cs with
          | nil => simp [listCharLe] at h2
          | cons c cs =>
              simp only [listCharLe] at h1 h2 ⊢
              split_ifs at h1 h2 ⊢ <;> try rfl
              all_goals try omega
              all_goals try simp_all
              all_goals
                first
                | omega
                | exact ih bs cs h1 h2

theorem listCharLe_antisymm :
    ∀ as bs, listCharLe as bs = true → listCharLe bs as = true → as = bs := by
  intro as
  induction as with
  | nil =>
      intro bs h1 h2
      cases bs with
      | nil => rfl
      | cons b bs => simp [listCharLe] at h2
  | cons a as ih =>
      intro bs h1 h2
      cases bs with
      | nil => simp [listCharLe] at h1
      | cons b bs =>
          simp only [listCharLe] at h1 h2
          by_cases hab : a.toNat < b.toNat
          · exfalso
            rw [if_neg (by omega), if_pos hab] at h2
            exact Bool.false_ne_true h2
          · by_cases hba : b.toNat < a.toNat
            · exfalso
              rw [if_neg hab, if_pos hba] at h1
              exact Bool.false_ne_true h1
            · rw [if_neg hab, if_neg hba] at h1
              rw [if_neg hba, if_neg hab] at h2
              rw [char_toNat_inj (by omega : a.toNat = b.toNat), ih bs h1 h2]

theorem strLeB_total (a b : String) : (strLeB a b || strLeB b a) = true :=
  listCharLe_total a.data b.data

theorem strLeB_trans {a b c : String} (h1 : strLeB a b = true) (h2 : strLeB b c = true) :
    strLeB a c = true :=
  listCharLe_trans a.data b.data c.data h1 h2

theorem strLeB_antisymm {a b : String} (h1 : strLeB a b = true) (h2 : strLeB b a = true) :
    a = b :=
  String.ext (listCharLe_antisymm a.data b.data h1 h2)

theorem pyInsert_perm {A : Type} (le : A → A → Bool) (x : A) :
    ∀ l, (pyInsert le x l).Perm (x :: l) := by
  intro l
  induction l with
  | nil => exact List.Perm.refl _
  | cons y ys ih =>
      simp only [pyInsert]
      split
      · exact List.Perm.refl _
      · exact (List.Perm.cons y ih).trans (List.Perm.swap x y ys)

theorem pySorted_perm {A : Type} (le : A → A → Bool) :
    ∀ l, (pySorted le l).Perm l := by
  intro l
  induction l with
  | nil => exact List.Perm.refl _
  | cons x xs ih =>
      exact (pyInsert_perm le x (pySorted le xs)).trans (List.Perm.cons x ih)

theorem pySorted_mem {A : Type} (le : A → A → Bool) {x : A} {l : List A} :
    x ∈ pySorted le l ↔ x ∈ l :=
  (pySorted_perm le l).mem_iff

theorem pyInsert_sorted {A : Type} (le : A → A → Bool)
    (htot : ∀ a b, (le a b || le b a) = true)
    (htr : ∀ {a b c}, le a b = true → le b c = true → le a c = true) (x : A) :
    ∀ {l}, List.Pairwise (fun a b => le a b = true) l →
      List.Pairwise (fun a b => le a b = true) (pyInsert le x l) := by
  intro l
  induction l with
  | nil => intro h; simp [pyInsert]
  | cons y ys ih =>
      intro h
      rcases List.pairwise_cons.mp h with ⟨hy, hys⟩
      simp only [pyInsert]
      split
      · rename_i hxy
        refine List.pairwise_cons.mpr ⟨?_, h⟩
        intro z hz
        rcases List.mem_cons.mp hz with hz | hz
        · exact hz ▸ hxy
        · exact htr hxy (hy z hz)
      · rename_i hxy
        have hyx : le y x = true := by
          have := htot x y
          cases hle : le x y
          · cases hle2 : le y x
            · rw [hle, hle2] at this; exact absurd this (by simp)
            · rfl
          · exact absurd hle hxy
        refine List.pairwise_cons.mpr ⟨?_, ih hys⟩
        intro z hz
        rcases List.mem_cons.mp ((pyInsert_perm le x ys).mem_iff.mp hz) with hz | hz
        · exact hz ▸ hyx
        · exact hy z hz

theorem pySorted_sorted {A : Type} (le : A → A → Bool)
    (htot : ∀ a b, (le a b || le b a) = true)
    (htr : ∀ {a b c}, le a b = true → le b c = true → le a c = true) :
    ∀ l, List.Pairwise (fun a b => le a b = true) (pySorted le l) := by
  intro l
  induction l with
  | nil => simp [pySorted]
  | cons x xs ih => exact pyInsert_sorted le htot htr x ih

/-! # famGroup characterization (claim C4) -/

theorem consFam_keys_mem (k c : String) (G : List (String × List String))
    (hk : k ∈ G.map Prod.fst) : (consFam k c G).map Prod.fst = G.map Prod.fst := by
  simp only [consFam, if_pos hk, List.map_map]
  apply List.map_congr_left
  intro kv hkv
  by_cases h : kv.1 = k <;> simp [h]

theorem consFam_keys_not_mem (k c : String) (G : List (String × List String))
    (hk : k ∉ G.map Prod.fst) : (consFam k c G).map Prod.fst = k :: G.map Prod.fst := by
  simp [consFam, hk]

theorem famGroup_keys_iff : ∀ (xs : List String) (k : String),
    k ∈ (famGroup xs).map Prod.fst ↔ k ∈ xs.map famOf := by
  intro xs
  induction xs with
  | nil => intro k; simp [famGroup]
  | cons c rest ih =>
      intro k
      simp only [famGroup, List.map_cons, List.mem_cons]
      by_cases h : famOf c ∈ (famGroup rest).map Prod.fst
      · rw [consFam_keys_mem _ _ _ h, ih k]
        constructor
        · exact fun hk => Or.inr hk
        · rintro (rfl | hk)
          · exact (ih _).mp h
          · exact hk
      · rw [consFam_keys_not_mem _ _ _ h, List.mem_cons, ih k]

theorem famGroup_keys_nodup : ∀ xs : List String, ((famGroup xs).map Prod.fst).Nodup := by
  intro xs
  induction xs with
  | nil => simp [famGroup]
  | cons c rest ih =>
      simp only [famGroup]
      by_cases h : famOf c ∈ (famGroup rest).map Prod.fst
      · rw [consFam_keys_mem _ _ _ h]; exact ih
      · rw [consFam_keys_not_mem _ _ _ h]; exact List.nodup_cons.mpr ⟨h, ih⟩

theorem consFam_mem (k c : String) (G : List (String × List String))
    {kv : String × List String} (hkv : kv ∈ consFam k c G) :
    (k ∈ G.map Prod.fst
      ∧ ∃ kv2 ∈ G, kv = if kv2.1 = k then (kv2.1, c :: kv2.2) else kv2)
    ∨ (k ∉ G.map Prod.fst ∧ (kv = (k, [c]) ∨ kv ∈ G)) := by
  by_cases h : k ∈ G.map Prod.fst
  · left
    refine ⟨h, ?_⟩
    simp only [consFam, if_pos h] at hkv
    rcases List.mem_map.mp hkv with ⟨kv2, h2, hEq⟩
    exact ⟨kv2, h2, hEq.symm⟩
  · right
    refine ⟨h, ?_⟩
    simp only [consFam, if_neg h] at hkv
    exact List.mem_cons.mp hkv

theorem famGroup_entries : ∀ (xs : List String) (kv : String × List String),
    kv ∈ famGroup xs → kv.2 = xs.filter fun c => famOf c == kv.1 := by
  intro xs
  induction xs with
  | nil => intro kv hkv; simp [famGroup] at hkv
  | cons c rest ih =>
      intro kv hkv
      simp only [famGroup] at hkv
      rcases consFam_mem (famOf c) c (famGroup rest) hkv with
        ⟨hk, kv2, h2, hEq⟩ | ⟨hk, hkv2⟩
      · by_cases hq : kv2.1 = famOf c
        · rw [if_pos hq] at hEq
          subst hEq
          rw [List.filter_cons, if_pos (by simp [hq]), ih kv2 h2]
        · rw [if_neg hq] at hEq
          subst hEq
          rw [List.filter_cons,
            if_neg (by simp only [beq_iff_eq]; exact fun hh => hq hh.symm),
            ih _ h2]
      · rcases hkv2 with rfl | hkv2
        · rw [List.filter_cons, if_pos (by simp)]
          have hnone : ∀ x ∈ rest, ¬(famOf x == famOf c) = true := by
            intro x hx hbad
            exact hk ((famGroup_keys_iff rest (famOf c)).mpr
              (List.mem_map.mpr ⟨x, hx, by simpa using hbad⟩))
          rw [List.filter_eq_nil_iff.mpr hnone]
        · have h1 : kv.1 ∈ (famGroup rest).map Prod.fst :=
            List.mem_map.mpr ⟨kv, hkv2, rfl⟩
          have hne : famOf c ≠ kv.1 := fun hEq => hk (hEq ▸ h1)
          rw [List.filter_cons, if_neg (by simpa using hne), ih kv hkv2]

theorem famGroup_entry_ne_nil (xs : List String) (kv : String × List String)
    (hkv : kv ∈ famGroup xs) : kv.2 ≠ [] := by
  have hkey : kv.1 ∈ xs.map famOf :=
    (famGroup_keys_iff xs kv.1).mp (List.mem_map.mpr ⟨kv, hkv, rfl⟩)
  rcases List.mem_map.mp hkey with ⟨x, hx, hfx⟩
  rw [famGroup_entries xs kv hkv]
  intro hnil
  have : x ∈ xs.filter fun c => famOf c == kv.1 :=
    List.mem_filter.mpr ⟨hx, by simp [hfx]⟩
  rw [hnil] at this
  exact List.not_mem_nil x this

theorem famGroup_eq (xs : List String) :
    famGroup xs = ((famGroup xs).map Prod.fst).map
      fun k => (k, xs.filter fun c => famOf c == k) := by
  rw [List.map_map]
  symm
  conv_rhs => rw [← List.map_id (famGroup xs)]
  apply List.map_congr_left
  intro kv hkv
  have h := famGroup_entries xs kv hkv
  cases kv with
  | mk k v => simpa [Function.comp] using h.symm

theorem eq_of_perm_of_keySorted {A : Type} (key : A → String) {l1 l2 : List A}
    (hp : l1.Perm l2)
    (h1 : List.Pairwise (fun a b => strLeB (key a) (key b) = true ∧ key a ≠ key b) l1)
    (h2 : List.Pairwise (fun a b => strLeB (key a) (key b) = true ∧ key a ≠ key b) l2) :
    l1 = l2 := by
  haveI : IsAntisymm A (fun a b => strLeB (key a) (key b) = true ∧ key a ≠ key b) :=
    ⟨fun a b ha hb => absurd (strLeB_antisymm ha.1 hb.1) ha.2⟩
  exact List.eq_of_perm_of_sorted hp h1 h2

theorem sorted_items_eq (xs : List String) :
    pySorted pairLeB (famGroup xs)
      = (pySorted strLeB ((famGroup xs).map Prod.fst)).map
          fun k => (k, xs.filter fun c => famOf c == k) := by
  have hperm1 : (pySorted pairLeB (famGroup xs)).Perm (famGroup xs) :=
    pySorted_perm pairLeB (famGroup xs)
  have hperm2 : (((famGroup xs).map Prod.fst).map
      (fun k => (k, xs.filter fun c => famOf c == k))).Perm
        ((pySorted strLeB ((famGroup xs).map Prod.fst)).map
          fun k => (k, xs.filter fun c => famOf c == k)) :=
    (List.Perm.map _ (pySorted_perm strLeB ((famGroup xs).map Prod.fst))).symm
  have hperm : (pySorted pairLeB (famGroup xs)).Perm
      ((pySorted strLeB ((famGroup xs).map Prod.fst)).map
        fun k => (k, xs.filter fun c => famOf c == k)) := by
    refine hperm1.trans ?_
    conv_lhs => rw [famGroup_eq xs]
    exact hperm2
  have hsortL : List.Pairwise (fun a b => pairLeB a b = true)
      (pySorted pairLeB (famGroup xs)) :=
    pySorted_sorted pairLeB (fun a b => strLeB_total a.1 b.1)
      (fun h1 h2 => strLeB_trans h1 h2) (famGroup xs)
  have hnodupL : ((pySorted pairLeB (famGroup xs)).map Prod.fst).Nodup := by
    have hpm := List.Perm.map Prod.fst hperm1
    exact hpm.symm.nodup (famGroup_keys_nodup xs)
  have hstrictL : List.Pairwise
      (fun a b : String × List String => strLeB a.1 b.1 = true ∧ a.1 ≠ b.1)
      (pySorted pairLeB (famGroup xs)) :=
    hsortL.and (List.pairwise_map.mp hnodupL)
  have hkeysSorted : List.Pairwise (fun a b => strLeB a b = true)
      (pySorted strLeB ((famGroup xs).map Prod.fst)) :=
    pySorted_sorted strLeB strLeB_total (fun h1 h2 => strLeB_trans h1 h2) _
  have hkeysNodup : (pySorted strLeB ((famGroup xs).map Prod.fst)).Nodup :=
    ((pySorted_perm strLeB _).symm).nodup (famGroup_keys_nodup xs)
  have hstrictKeys : List.Pairwise (fun a b => strLeB a b = true ∧ a ≠ b)
      (pySorted strLeB ((famGroup xs).map Prod.fst)) :=
    hkeysSorted.and hkeysNodup
  have hstrictR : List.Pairwise
      (fun a b : String × List String => strLeB a.1 b.1 = true ∧ a.1 ≠ b.1)
      ((pySorted strLeB ((famGroup xs).map Prod.fst)).map
        fun k => (k, xs.filter fun c => famOf c == k)) :=
    List.pairwise_map.mpr hstrictKeys
  exact eq_of_perm_of_keySorted Prod.fst hperm hstrictL hstrictR

theorem sorted_keys_eq (xs : List String) :
    pySorted strLeB ((famGroup (pySorted strLeB xs)).map Prod.fst)
      = pySorted strLeB ((xs.map famOf).dedup) := by
  have hn1 : (pySorted strLeB ((famGroup (pySorted strLeB xs)).map Prod.fst)).Nodup :=
    ((pySorted_perm strLeB _).symm).nodup (famGroup_keys_nodup _)
  have hn2 : (pySorted strLeB ((xs.map famOf).dedup)).Nodup :=
    ((pySorted_perm strLeB _).symm).nodup (List.nodup_dedup _)
  have hmem : ∀ k, k ∈ pySorted strLeB ((famGroup (pySorted strLeB xs)).map Prod.fst)
      ↔ k ∈ pySorted strLeB ((xs.map famOf).dedup) := by
    intro k
    rw [pySorted_mem, famGroup_keys_iff, pySorted_mem, List.mem_dedup]
    exact (List.Perm.map famOf (pySorted_perm strLeB xs)).mem_iff
  have hperm := (List.perm_ext_iff_of_nodup hn1 hn2).mpr hmem
  exact eq_of_perm_of_keySorted id hperm
    ((pySorted_sorted strLeB strLeB_total (fun h1 h2 => strLeB_trans h1 h2) _).and hn1)
    ((pySorted_sorted strLeB strLeB_total (fun h1 h2 => strLeB_trans h1 h2) _).and hn2)

/-- C4: profile extraction collects all referenced ids across imports
without deduplication, sorts them lexicographically, groups them by family
(prefix before the first hyphen, uppercased) preserving post-sort order
within each family, and emits a level-1 summary (occurrence total and
comma-joined sorted family keys) followed by one level-2 section per
family in sorted key order; with no ids it emits the single fixed
informational section; and the spec's `["ac-2","ac-1","au-3"]` example
extracts exactly as stated. -/
theorem claim_C4_profile_extraction :
    (∀ p : Profile, allIds p ≠ [] →
      extract_profile p
        = ⟨p.title.getD "Unknown Profile", 1,
            "Total controls: " ++ toString (allIds p).length ++ "\nFamilies: "
              ++ pyJoin ", " (specFams p)⟩
          :: specFamilySections p)
  ∧ (∀ p : Profile, allIds p = [] →
      extract_profile p
        = [⟨p.title.getD "Unknown Profile", 1, "No control IDs found in profile."⟩])
  ∧ extract_profile exProfile
      = [⟨"P", 1, "Total controls: 3\nFamilies: AC, AU"⟩,
         ⟨"AC Controls", 2, "ac-1, ac-2"⟩, ⟨"AU Controls", 2, "au-3"⟩] := by
  refine ⟨fun p h => ?_, fun p h => ?_, by decide⟩
  · simp only [extract_profile, if_neg h]
    congr 1
    · rw [sorted_keys_eq (allIds p)]
      rfl
    · rw [sorted_items_eq (pySorted strLeB (allIds p)), List.map_map,
        sorted_keys_eq (allIds p)]
      rfl
  · simp only [extract_profile, if_pos h]

/-- Witness for C4 at the spec example profile and at an importless
profile. -/
theorem claim_C4_witness :
    extract_profile exProfile
      = ⟨"P", 1, "Total controls: " ++ toString (allIds exProfile).length
          ++ "\nFamilies: " ++ pyJoin ", " (specFams exProfile)⟩
        :: specFamilySections exProfile
  ∧ extract_profile ⟨none, []⟩
      = [⟨"Unknown Profile", 1, "No control IDs found in profile."⟩] :=
  ⟨claim_C4_profile_extraction.1 exProfile (by decide),
   claim_C4_profile_extraction.2.1 ⟨none, []⟩ (by decide)⟩

/-! # Claim C2: section emission invariants -/

theorem pyJoin_ne_empty {sep : String} {l : List String} (hne : l ≠ [])
    (hx : ∀ x ∈ l, x ≠ "") : pyJoin sep l ≠ "" := by
  cases l with
  | nil => exact absurd rfl hne
  | cons x r =>
      cases r with
      | nil => exact hx x (by simp)
      | cons y ys =>
          show x ++ sep ++ pyJoin sep (y :: ys) ≠ ""
          exact str_append_ne_empty_left (str_append_ne_empty_left (hx x (by simp)))

theorem rank_ge_one {n : String} (h : n ∈ HEADING_TAGS) : 1 ≤ rankOf n := by
  simp only [HEADING_TAGS, List.mem_cons, List.not_mem_nil, or_false] at h
  rcases h with rfl | rfl | rfl | rfl <;> decide

theorem step_inv (st : WalkSt) (e : Html)
    (hsec : ∀ s ∈ st.sections, s.content ≠ "" ∧ 1 ≤ s.level) (hlvl : 1 ≤ st.level) :
    (∀ s ∈ (step st e).sections, s.content ≠ "" ∧ 1 ≤ s.level)
      ∧ 1 ≤ (step st e).level := by
  unfold step
  by_cases hh : nameOf e ∈ HEADING_TAGS
  · rw [if_pos hh]
    refine ⟨fun s hs => ?_, rank_ge_one hh⟩
    rcases List.mem_append.mp hs with hs | hs
    · exact hsec s hs
    · by_cases hb : flushBody st = ""
      · rw [if_neg (by simpa using hb)] at hs
        exact absurd hs (List.not_mem_nil s)
      · rw [if_pos (by simpa using hb)] at hs
        rcases List.mem_singleton.mp hs with rfl
        exact ⟨hb, hlvl⟩
  · rw [if_neg hh]
    by_cases ht : getText " " e = ""
    · rw [if_neg (by simpa using ht)]
      exact ⟨hsec, hlvl⟩
    · rw [if_pos (by simpa using ht)]
      exact ⟨hsec, hlvl⟩

theorem foldl_step_inv (els : List Html) :
    ∀ st : WalkSt, (∀ s ∈ st.sections, s.content ≠ "" ∧ 1 ≤ s.level) → 1 ≤ st.level →
      (∀ s ∈ (els.foldl step st).sections, s.content ≠ "" ∧ 1 ≤ s.level)
        ∧ 1 ≤ (els.foldl step st).level := by
  induction els with
  | nil => exact fun st h hl => ⟨h, hl⟩
  | cons e els ih =>
      intro st h hl
      rw [List.foldl_cons]
      obtain ⟨h1, h2⟩ := step_inv st e h hl
      exact ih (step st e) h1 h2

theorem walkContainer_inv (stem : String) (c : Html) :
    ∀ s ∈ walkContainer stem c, s.content ≠ "" ∧ 1 ≤ s.level := by
  intro s hs
  simp only [walkContainer] at hs
  set stF := List.foldl step ⟨[], stem, 1, []⟩
    (findAllTagsList (HEADING_TAGS ++ CONTENT_TAGS) (childrenOf c)) with hstF
  have base := foldl_step_inv (findAllTagsList (HEADING_TAGS ++ CONTENT_TAGS) (childrenOf c))
    ⟨[], stem, 1, []⟩ (fun t ht => absurd ht (List.not_mem_nil t)) (le_refl 1)
  rw [← hstF] at base
  by_cases hb : flushBody stF = ""
  · simp only [hb, ne_eq, not_true_eq_false, if_false, List.append_nil] at hs
    by_cases hsec : stF.sections = []
    · rw [if_pos hsec] at hs
      by_cases hraw : getText "\n" c = ""
      · rw [if_neg (not_not_intro hraw)] at hs
        exact absurd hs (List.not_mem_nil s)
      · rw [if_pos hraw] at hs
        rcases List.mem_singleton.mp hs with rfl
        exact ⟨hraw, le_refl 1⟩
    · rw [if_neg hsec] at hs
      exact base.1 s hs
  · simp only [hb, ne_eq, not_false_eq_true, if_true] at hs
    rw [if_neg (by simp)] at hs
    rcases List.mem_append.mp hs with hs | hs
    · exact base.1 s hs
    · rcases List.mem_singleton.mp hs with rfl
      exact ⟨hb, base.2⟩

mutual

theorem extract_control_sections_inv (c : Control) (lvl : Nat) (hl : 1 ≤ lvl) :
    ∀ s ∈ extract_control_sections c lvl, s.content ≠ "" ∧ 1 ≤ s.level := by
  match c with
  | .mk id title parts controls =>
      intro s hs
      simp only [extract_control_sections] at hs
      rcases List.mem_append.mp hs with hs | hs
      · split at hs <;> split at hs <;>
          first
          | exact absurd hs (List.not_mem_nil s)
          | (rename_i hcond
             rcases List.mem_singleton.mp hs with rfl
             exact ⟨hcond.2, hl⟩)
      · exact extractControlList_inv controls (lvl + 1) (by omega) s hs

theorem extractControlList_inv (cs : List Control) (lvl : Nat) (hl : 1 ≤ lvl) :
    ∀ s ∈ extractControlList cs lvl, s.content ≠ "" ∧ 1 ≤ s.level := by
  match cs with
  | [] => intro s hs; simp [extractControlList] at hs
  | c :: rest =>
      intro s hs
      simp only [extractControlList] at hs
      rcases List.mem_append.mp hs with hs | hs
      · exact extract_control_sections_inv c lvl hl s hs
      · exact extractControlList_inv rest lvl hl s hs

end

theorem extract_catalog_inv (cat : Catalog) :
    ∀ s ∈ extract_catalog cat, s.content ≠ "" ∧ 1 ≤ s.level := by
  intro s hs
  simp only [extract_catalog] at hs
  rcases List.mem_flatten.mp hs with ⟨l, hl, hsl⟩
  rcases List.mem_map.mp hl with ⟨g, hg, rfl⟩
  exact extractControlList_inv g.controls 2 (by omega) s hsl

theorem extract_profile_inv (p : Profile) (hids : ∀ i ∈ allIds p, i ≠ "") :
    ∀ s ∈ extract_profile p, s.content ≠ "" ∧ 1 ≤ s.level := by
  intro s hs
  simp only [extract_profile] at hs
  split at hs
  · rcases List.mem_singleton.mp hs with rfl
    exact ⟨by simp, le_refl 1⟩
  · rcases List.mem_cons.mp hs with rfl | hs
    · refine ⟨?_, le_refl 1⟩
      exact str_append_ne_empty_left (str_append_ne_empty_left
        (str_append_ne_empty_left (by decide)))
    · rcases List.mem_map.mp hs with ⟨fi, hfi, rfl⟩
      have hfi2 : fi ∈ famGroup (pySorted strLeB (allIds p)) :=
        (pySorted_mem pairLeB).mp hfi
      have hne : fi.2 ≠ [] := famGroup_entry_ne_nil _ _ hfi2
      have hsub : ∀ i ∈ fi.2, i ≠ "" := by
        intro i hi
        rw [famGroup_entries _ fi hfi2] at hi
        exact hids i ((pySorted_mem strLeB).mp (List.mem_filter.mp hi).1)
      exact ⟨pyJoin_ne_empty hne hsub, show (1 : Nat) ≤ 2 by omega⟩

theorem pdfSectionsFrom_inv (pages : List String) :
    ∀ k s, s ∈ pdfSectionsFrom k pages → s.content ≠ "" ∧ 1 ≤ s.level := by
  induction pages with
  | nil => intro k s hs; simp [pdfSectionsFrom, List.enumFrom] at hs
  | cons p ps ih =>
      intro k s hs
      simp only [pdfSectionsFrom, List.enumFrom, List.filterMap_cons] at hs
      by_cases hp : pyStrip p = ""
      · rw [if_neg (by simpa using hp)] at hs
        exact ih (k + 1) s (by simpa [pdfSectionsFrom] using hs)
      · rw [if_pos (by simpa using hp)] at hs
        rcases List.mem_cons.mp hs with rfl | hs
        · exact ⟨hp, le_refl 1⟩
        · exact ih (k + 1) s (by simpa [pdfSectionsFrom] using hs)

theorem extract_profile_level_inv (p : Profile) :
    ∀ s ∈ extract_profile p, 1 ≤ s.level := by
  intro s hs
  simp only [extract_profile] at hs
  split at hs
  · rcases List.mem_singleton.mp hs with rfl
    exact le_refl 1
  · rcases List.mem_cons.mp hs with rfl | hs
    · exact le_refl 1
    · rcases List.mem_map.mp hs with ⟨fi, hfi, rfl⟩
      exact show (1 : Nat) ≤ 2 by omega

/-- C2 counterexample: for the empty HTML document (no `main`, no
`role="main"`, no `article`, no `body`) the whole-document fallback at
lines 113-115 emits one section whose content is empty, refuting the claim
that every emitted section has non-empty content. -/
theorem claim_C2_counterexample :
    extract_html [] "doc" = [⟨"doc", 1, ""⟩]
  ∧ ¬(∀ s ∈ extract_html [] "doc", s.content ≠ "") :=
  ⟨by decide, by decide⟩

/-- C2 (amended): every section emitted by any extractor has level at
least 1 (unconditionally, including profiles with empty referenced ids
and both HTML paths); sections emitted by the PDF extractor, the HTML extractor when a
container is found, the catalog extractor, and the profile extractor on
profiles whose referenced ids are all non-empty also have non-empty
content; the HTML whole-document fallback taken when no container exists
emits exactly one level-1 section whose content is the document's entire
visible text and may be empty. -/
theorem claim_C2_emitted_section_invariants :
    (∀ pages secs, extract_pdf (.ok pages) = .ok secs →
      ∀ s ∈ secs, s.content ≠ "" ∧ 1 ≤ s.level)
  ∧ (∀ (doc : List Html) (stem : String) (c : Html), chooseContainer doc = some c →
      ∀ s ∈ extract_html doc stem, s.content ≠ "" ∧ 1 ≤ s.level)
  ∧ (∀ (doc : List Html) (stem : String), chooseContainer doc = none →
      extract_html doc stem = [⟨stem, 1, pyJoin "\n" (strTextsList doc)⟩])
  ∧ (∀ cat : Catalog, ∀ s ∈ extract_catalog cat, s.content ≠ "" ∧ 1 ≤ s.level)
  ∧ (∀ p : Profile, (∀ i ∈ allIds p, i ≠ "") →
      ∀ s ∈ extract_profile p, s.content ≠ "" ∧ 1 ≤ s.level)
  ∧ (∀ (doc : List Html) (stem : String), ∀ s ∈ extract_html doc stem, 1 ≤ s.level)
  ∧ (∀ p : Profile, ∀ s ∈ extract_profile p, 1 ≤ s.level) := by
  refine ⟨fun pages secs h => ?_, fun doc stem c h => ?_, fun doc stem h => ?_,
    extract_catalog_inv, extract_profile_inv, fun doc stem s hs => ?_,
    extract_profile_level_inv⟩
  · cases h
    exact pdfSectionsFrom_inv pages 1
  · simp only [extract_html, h]
    exact walkContainer_inv stem c
  · simp only [extract_html, h]
  · unfold extract_html at hs
    cases hc : chooseContainer doc with
    | none =>
        rw [hc] at hs
        rcases List.mem_singleton.mp hs with rfl
        exact le_refl 1
    | some c =>
        rw [hc] at hs
        exact (walkContainer_inv stem c s hs).2

/-- Witness for C2 at concrete inputs for each extractor. -/
theorem claim_C2_witness :
    ((⟨"Page 1", 1, "hi"⟩ : Sec).content ≠ "" ∧ 1 ≤ (⟨"Page 1", 1, "hi"⟩ : Sec).level)
  ∧ ((⟨"s", 1, "W\nW"⟩ : Sec).content ≠ "" ∧ 1 ≤ (⟨"s", 1, "W\nW"⟩ : Sec).level)
  ∧ extract_html [] "doc" = [⟨"doc", 1, pyJoin "\n" (strTextsList [])⟩]
  ∧ ((⟨"AU Controls", 2, "au-3"⟩ : Sec).content ≠ ""
      ∧ 1 ≤ (⟨"AU Controls", 2, "au-3"⟩ : Sec).level)
  ∧ 1 ≤ (⟨"doc", 1, ""⟩ : Sec).level
  ∧ 1 ≤ (⟨" Controls", 2, ""⟩ : Sec).level :=
  ⟨claim_C2_emitted_section_invariants.1 ["hi"] (pdfSpecSections ["hi"]) rfl
     ⟨"Page 1", 1, "hi"⟩ (by decide),
   claim_C2_emitted_section_invariants.2.1 wDom "s" (.elem "main" [] [wOuter]) (by rfl)
     ⟨"s", 1, "W\nW"⟩ (by decide),
   claim_C2_emitted_section_invariants.2.2.1 [] "doc" (by rfl),
   claim_C2_emitted_section_invariants.2.2.2.2.1 exProfile (by decide)
     ⟨"AU Controls", 2, "au-3"⟩ (by decide),
   claim_C2_emitted_section_invariants.2.2.2.2.2.1 [] "doc" ⟨"doc", 1, ""⟩ (by decide),
   claim_C2_emitted_section_invariants.2.2.2.2.2.2 ⟨none, [⟨[⟨[""]⟩]⟩]⟩
     ⟨" Controls", 2, ""⟩ (by decide)⟩

/-! # pyStrip fixed points and good lines (claim C10) -/

theorem dropWhile_head_not (p : Char → Bool) :
    ∀ (l : List Char) (c : Char), (l.dropWhile p).head? = some c → p c = false := by
  intro l
  induction l with
  | nil => intro c h; simp at h
  | cons x xs ih =>
      intro c h
      rw [List.dropWhile_cons] at h
      split at h
      · exact ih c h
      · rename_i hx
        simp only [List.head?_cons, Option.some.injEq] at h
        subst h
        simpa using hx

theorem dropWhile_eq_self (p : Char → Bool) (l : List Char)
    (h : ∀ c, l.head? = some c → p c = false) : l.dropWhile p = l := by
  cases l with
  | nil => rfl
  | cons x xs =>
      rw [List.dropWhile_cons, if_neg]
      simp [h x rfl]

theorem getLast?_dropWhile (p : Char → Bool) :
    ∀ l : List Char, l.dropWhile p ≠ [] → (l.dropWhile p).getLast? = l.getLast? := by
  intro l
  induction l with
  | nil => intro h; exact absurd rfl h
  | cons x xs ih =>
      intro h
      rw [List.dropWhile_cons] at h ⊢
      by_cases hp : p x = true
      · rw [if_pos hp] at h ⊢
        cases xs with
        | nil => exact absurd rfl h
        | cons y ys =>
            rw [ih h]
            cases hgl : (y :: ys).getLast? with
            | none => simp [List.getLast?_cons] at hgl
            | some z =>
                rw [List.getLast?_cons, hgl]
                rfl
      · rw [if_neg hp]

theorem pyStrip_eq_self {s : String}
    (h1 : ∀ c, s.data.head? = some c → c.isWhitespace = false)
    (h2 : ∀ c, s.data.getLast? = some c → c.isWhitespace = false) :
    pyStrip s = s := by
  unfold pyStrip
  rw [dropWhile_eq_self _ _ h1, dropWhile_eq_self, List.reverse_reverse]
  intro c hc
  rw [List.head?_reverse] at hc
  exact h2 c hc

theorem pyStrip_head_not_white (s : String) :
    ∀ c, (pyStrip s).data.head? = some c → c.isWhitespace = false := by
  intro c hc
  show _ = false
  unfold pyStrip at hc
  rw [List.head?_reverse] at hc
  have hne : (s.data.dropWhile Char.isWhitespace).reverse.dropWhile Char.isWhitespace ≠ [] := by
    intro hnil
    rw [hnil] at hc
    simp at hc
  rw [getLast?_dropWhile _ _ hne, List.getLast?_reverse] at hc
  exact dropWhile_head_not Char.isWhitespace s.data c hc

theorem pyStrip_last_not_white (s : String) :
    ∀ c, (pyStrip s).data.getLast? = some c → c.isWhitespace = false := by
  intro c hc
  unfold pyStrip at hc
  rw [List.getLast?_reverse] at hc
  exact dropWhile_head_not Char.isWhitespace _ c hc

theorem pyStrip_idem (s : String) : pyStrip (pyStrip s) = pyStrip s :=
  pyStrip_eq_self (pyStrip_head_not_white s) (pyStrip_last_not_white s)

theorem goodLine_head {x : String} (hx : goodLine x) :
    ∀ c, x.data.head? = some c → c.isWhitespace = false := by
  intro c hc
  refine pyStrip_head_not_white x c ?_
  rw [hx.2]
  exact hc

theorem goodLine_last {x : String} (hx : goodLine x) :
    ∀ c, x.data.getLast? = some c → c.isWhitespace = false := by
  intro c hc
  refine pyStrip_last_not_white x c ?_
  rw [hx.2]
  exact hc

theorem pyJoin_head (sep : String) (x : String) (r : List String) (hx : x ≠ "") :
    (pyJoin sep (x :: r)).data.head? = x.data.head? := by
  cases r with
  | nil => rfl
  | cons y ys =>
      show ((x ++ sep ++ pyJoin sep (y :: ys)).data).head? = _
      rw [str_append_data, str_append_data, List.append_assoc, List.head?_append]
      cases hd : x.data with
      | nil => exact absurd (str_eq_empty_iff.mpr hd) hx
      | cons c cs => simp

theorem pyJoin_last (sep : String) :
    ∀ l : List String, (∀ x ∈ l, x ≠ "") → l ≠ [] →
      ∃ xl ∈ l, (pyJoin sep l).data.getLast? = xl.data.getLast? := by
  intro l
  induction l with
  | nil => intro _ h; exact absurd rfl h
  | cons x r ih =>
      intro hne _
      cases r with
      | nil => exact ⟨x, by simp, rfl⟩
      | cons y ys =>
          rcases ih (fun z hz => hne z (by simp [hz])) (by simp) with ⟨xl, hxl, heq⟩
          refine ⟨xl, by simp [List.mem_cons.mp hxl], ?_⟩
          show ((x ++ sep ++ pyJoin sep (y :: ys)).data).getLast? = _
          rw [str_append_data, str_append_data, List.append_assoc, List.getLast?_append,
            List.getLast?_append]
          have hjoin : pyJoin sep (y :: ys) ≠ "" :=
            pyJoin_ne_empty (by simp) fun z hz => hne z (by simp [hz])
          cases hgl : (pyJoin sep (y :: ys)).data.getLast? with
          | none =>
              have hdne : (pyJoin sep (y :: ys)).data ≠ [] :=
                fun hh => hjoin (str_eq_empty_iff.mpr hh)
              cases hd : (pyJoin sep (y :: ys)).data with
              | nil => exact absurd hd hdne
              | cons c cs =>
                  rw [hd] at hgl
                  simp [List.getLast?_cons] at hgl
          | some z =>
              rw [hgl] at heq
              simpa using heq

theorem goodLine_pyJoin (sep : String) {l : List String} (hne : l ≠ [])
    (hl : ∀ x ∈ l, goodLine x) : goodLine (pyJoin sep l) := by
  have hnem : ∀ x ∈ l, x ≠ "" := fun x hx => (hl x hx).1
  refine ⟨pyJoin_ne_empty hne hnem, pyStrip_eq_self ?_ ?_⟩
  · intro c hc
    cases l with
    | nil => exact absurd rfl hne
    | cons x r =>
        rw [pyJoin_head sep x r (hnem x (by simp))] at hc
        exact goodLine_head (hl x (by simp)) c hc
  · intro c hc
    rcases pyJoin_last sep l hnem hne with ⟨xl, hxl, heq⟩
    rw [heq] at hc
    exact goodLine_last (hl xl hxl) c hc

mutual

theorem strTexts_good : ∀ (n : Html) (x : String), x ∈ strTexts n → goodLine x := by
  intro n x hx
  match n with
  | .text s =>
      simp only [strTexts] at hx
      split at hx
      · exact absurd hx (List.not_mem_nil x)
      · rename_i hns
        rcases List.mem_singleton.mp hx with rfl
        exact ⟨hns, pyStrip_idem s⟩
  | .elem nm a cs => exact strTextsList_good cs x hx

theorem strTextsList_good : ∀ (cs : List Html) (x : String), x ∈ strTextsList cs → goodLine x := by
  intro cs x hx
  match cs with
  | [] => exact absurd hx (List.not_mem_nil x)
  | c :: rest =>
      simp only [strTextsList] at hx
      rcases List.mem_append.mp hx with hx | hx
      · exact strTexts_good c x hx
      · exact strTextsList_good rest x hx

end

theorem getText_good {e : Html} (h : getText " " e ≠ "") : goodLine (getText " " e) := by
  by_cases hl : strTexts e = []
  · exact absurd (by rw [getText, hl]; rfl) h
  · exact goodLine_pyJoin " " hl fun x hx => strTexts_good e x hx

/-! # Walk lemmas (claim C10) -/

theorem step_lines_good (st : WalkSt) (e : Html)
    (h : ∀ x ∈ st.lines, goodLine x) : ∀ x ∈ (step st e).lines, goodLine x := by
  unfold step
  by_cases hh : nameOf e ∈ HEADING_TAGS
  · rw [if_pos hh]
    intro x hx
    exact absurd hx (List.not_mem_nil x)
  · rw [if_neg hh]
    by_cases ht : getText " " e = ""
    · rw [if_neg (not_not_intro ht)]
      exact h
    · rw [if_pos ht]
      intro x hx
      rcases List.mem_append.mp hx with hx | hx
      · exact h x hx
      · rcases List.mem_singleton.mp hx with rfl
        exact getText_good ht

theorem foldl_lines_good (els : List Html) :
    ∀ st : WalkSt, (∀ x ∈ st.lines, goodLine x) →
      ∀ x ∈ (els.foldl step st).lines, goodLine x := by
  induction els with
  | nil => exact fun st h => h
  | cons e els ih =>
      intro st h
      rw [List.foldl_cons]
      exact ih (step st e) (step_lines_good st e h)

theorem foldl_sections_mono (els : List Html) :
    ∀ st : WalkSt, ∃ suf, (els.foldl step st).sections = st.sections ++ suf := by
  induction els with
  | nil => exact fun st => ⟨[], by simp⟩
  | cons e els ih =>
      intro st
      rcases ih (step st e) with ⟨suf, hsuf⟩
      have hstep : ∃ g, (step st e).sections = st.sections ++ g := by
        unfold step
        by_cases hh : nameOf e ∈ HEADING_TAGS
        · rw [if_pos hh]
          exact ⟨_, rfl⟩
        · rw [if_neg hh]
          by_cases ht : getText " " e = ""
          · rw [if_neg (not_not_intro ht)]
            exact ⟨[], by simp⟩
          · rw [if_pos ht]
            exact ⟨[], by simp⟩
      rcases hstep with ⟨g, hg⟩
      rw [List.foldl_cons, hsuf, hg, List.append_assoc]
      exact ⟨g ++ suf, rfl⟩

theorem foldl_content_only (els : List Html) (hno : ∀ e ∈ els, nameOf e ∉ HEADING_TAGS) :
    ∀ st : WalkSt, ∃ E, els.foldl step st = ⟨st.sections, st.heading, st.level, st.lines ++ E⟩
      ∧ ∀ x ∈ E, goodLine x := by
  induction els with
  | nil =>
      intro st
      exact ⟨[], by simp, fun x hx => absurd hx (List.not_mem_nil x)⟩
  | cons e els ih =>
      intro st
      have he := hno e (by simp)
      have hstep : ∃ g, step st e = ⟨st.sections, st.heading, st.level, st.lines ++ g⟩
          ∧ ∀ x ∈ g, goodLine x := by
        unfold step
        rw [if_neg he]
        by_cases ht : getText " " e = ""
        · rw [if_neg (not_not_intro ht)]
          exact ⟨[], by simp, fun x hx => absurd hx (List.not_mem_nil x)⟩
        · rw [if_pos ht]
          refine ⟨[getText " " e], rfl, ?_⟩
          intro x hx
          rcases List.mem_singleton.mp hx with rfl
          exact getText_good ht
      rcases hstep with ⟨g, hgEq, hgGood⟩
      rcases ih (fun e2 he2 => hno e2 (by simp [he2])) (step st e) with ⟨E, hE, hEGood⟩
      rw [List.foldl_cons, hE, hgEq]
      refine ⟨g ++ E, by simp [List.append_assoc], ?_⟩
      intro x hx
      rcases List.mem_append.mp hx with hx | hx
      · exact hgGood x hx
      · exact hEGood x hx

theorem occursTwice_of_parts {t o X Y A B : String} (ho : o = A ++ t ++ B) :
    occursTwice t (X ++ o ++ Y ++ t) := by
  refine ⟨X ++ A, B ++ Y, "", ?_⟩
  subst ho
  apply String.ext
  simp [str_append_data, List.append_assoc]

theorem occursTwice_append_right {t s z : String} (h : occursTwice t s) :
    occursTwice t (s ++ z) := by
  rcases h with ⟨a, b, c, rfl⟩
  refine ⟨a, b, c ++ z, ?_⟩
  apply String.ext
  simp [str_append_data, List.append_assoc]

theorem occursTwice_ne_empty {t s : String} (ht : t ≠ "") (h : occursTwice t s) :
    s ≠ "" := by
  rcases h with ⟨a, b, c, rfl⟩
  exact str_append_ne_empty_left (str_append_ne_empty_left
    (str_append_ne_empty_left (str_append_ne_empty_right ht)))

theorem occursTwice_flushBody {t : String} (ht : t ≠ "") {st : WalkSt}
    (hgood : ∀ x ∈ st.lines, goodLine x) (h : occursTwice t (pyJoin "\n" st.lines)) :
    occursTwice t (flushBody st) := by
  have hne : st.lines ≠ [] := by
    intro hnil
    exact occursTwice_ne_empty ht h (by rw [hnil]; rfl)
  show occursTwice t (pyStrip (pyJoin "\n" st.lines))
  rw [(goodLine_pyJoin "\n" hne hgood).2]
  exact h

theorem fold_finds_occurrence (t : String) (ht : t ≠ "") :
    ∀ (els : List Html) (st : WalkSt),
      (∀ x ∈ st.lines, goodLine x) → occursTwice t (pyJoin "\n" st.lines) →
      ∃ s ∈ ((els.foldl step st).sections
          ++ (if flushBody (els.foldl step st) ≠ "" then
                [⟨(els.foldl step st).heading, (els.foldl step st).level,
                  flushBody (els.foldl step st)⟩]
              else [])),
        occursTwice t s.content := by
  intro els
  induction els with
  | nil =>
      intro st hgood hocc
      have hocc2 : occursTwice t (flushBody st) := occursTwice_flushBody ht hgood hocc
      have hbody : flushBody st ≠ "" := occursTwice_ne_empty ht hocc2
      refine ⟨⟨st.heading, st.level, flushBody st⟩, ?_, hocc2⟩
      rw [List.foldl_nil, if_pos hbody]
      exact List.mem_append_right _ (by simp)
  | cons e els ih =>
      intro st hgood hocc
      rw [List.foldl_cons]
      by_cases hh : nameOf e ∈ HEADING_TAGS
      · have hocc2 : occursTwice t (flushBody st) := occursTwice_flushBody ht hgood hocc
        have hbody : flushBody st ≠ "" := occursTwice_ne_empty ht hocc2
        have hmem : (⟨st.heading, st.level, flushBody st⟩ : Sec) ∈ (step st e).sections := by
          unfold step
          rw [if_pos hh]
          show (⟨st.heading, st.level, flushBody st⟩ : Sec) ∈
            st.sections ++ (if flushBody st ≠ "" then
              [(⟨st.heading, st.level, flushBody st⟩ : Sec)] else [])
          rw [if_pos hbody]
          exact List.mem_append_right _ (by simp)
        rcases foldl_sections_mono els (step st e) with ⟨suf, hsuf⟩
        refine ⟨⟨st.heading, st.level, flushBody st⟩, ?_, hocc2⟩
        apply List.mem_append_left
        rw [hsuf]
        exact List.mem_append_left _ hmem
      · by_cases ht2 : getText " " e = ""
        · have hstEq : step st e = st := by
            unfold step
            rw [if_neg hh, if_neg (not_not_intro ht2)]
          rw [hstEq]
          exact ih st hgood hocc
        · have hstEq : step st e
              = ⟨st.sections, st.heading, st.level, st.lines ++ [getText " " e]⟩ := by
            unfold step
            rw [if_neg hh, if_pos ht2]
          rw [hstEq]
          have hLne : st.lines ≠ [] := by
            intro hnil
            exact occursTwice_ne_empty ht hocc (by rw [hnil]; rfl)
          apply ih
          · intro x hx
            rcases List.mem_append.mp hx with hx | hx
            · exact hgood x hx
            · rcases List.mem_singleton.mp hx with rfl
              exact getText_good ht2
          · show occursTwice t (pyJoin "\n" (st.lines ++ [getText " " e]))
            rw [pyJoin_append_ne "\n" hLne (by simp)]
            exact occursTwice_append_right (occursTwice_append_right hocc)

/-! # DOM tree lemmas (claim C10) -/

theorem descendants_eq (n : Html) : descendants n = descList (childrenOf n) := by
  cases n <;> rfl

mutual

theorem findAllTags_sub (tags : List String) :
    ∀ (n x : Html), x ∈ findAllTags tags n → x = n ∨ x ∈ descendants n := by
  intro n x hx
  match n with
  | .text s => simp [findAllTags] at hx
  | .elem nm a cs =>
      simp only [findAllTags] at hx
      rcases List.mem_append.mp hx with hx | hx
      · split at hx
        · rcases List.mem_singleton.mp hx with rfl
          exact Or.inl rfl
        · exact absurd hx (List.not_mem_nil x)
      · exact Or.inr (findAllTagsList_sub tags cs x hx)

theorem findAllTagsList_sub (tags : List String) :
    ∀ (cs : List Html) (x : Html), x ∈ findAllTagsList tags cs → x ∈ descList cs := by
  intro cs x hx
  match cs with
  | [] => exact absurd hx (List.not_mem_nil x)
  | c :: rest =>
      simp only [findAllTagsList] at hx
      rcases List.mem_append.mp hx with hx | hx
      · rcases findAllTags_sub tags c x hx with rfl | hd
        · show x ∈ x :: (descendants x ++ descList rest)
          exact List.mem_cons_self x _
        · show x ∈ c :: (descendants c ++ descList rest)
          exact List.mem_cons_of_mem c (List.mem_append_left _ hd)
      · show x ∈ c :: (descendants c ++ descList rest)
        exact List.mem_cons_of_mem c
          (List.mem_append_right _ (findAllTagsList_sub tags rest x hx))

end

theorem findAllTags_match {tags : List String} {nm : String}
    {a : List (String × String)} {cs : List Html} (h : nm ∈ tags) :
    findAllTags tags (.elem nm a cs) = .elem nm a cs :: findAllTagsList tags cs := by
  simp [findAllTags, h]

mutual

theorem findAllTags_decomp (tags : List String) :
    ∀ (n x : Html), x ∈ descendants n → nameOf x ∈ tags →
      ∃ P S, findAllTags tags n = P ++ findAllTags tags x ++ S := by
  intro n x hx hname
  match n with
  | .text s => simp [descendants] at hx
  | .elem nm a cs =>
      rcases findAllTagsList_decomp tags cs x hx hname with ⟨P, S, hPS⟩
      refine ⟨(if nm ∈ tags then [Html.elem nm a cs] else []) ++ P, S, ?_⟩
      show (if nm ∈ tags then [Html.elem nm a cs] else []) ++ findAllTagsList tags cs = _
      rw [hPS]
      simp [List.append_assoc]

theorem findAllTagsList_decomp (tags : List String) :
    ∀ (cs : List Html) (x : Html), x ∈ descList cs → nameOf x ∈ tags →
      ∃ P S, findAllTagsList tags cs = P ++ findAllTags tags x ++ S := by
  intro cs x hx hname
  match cs with
  | [] => simp [descList] at hx
  | c :: rest =>
      have hx2 : x = c ∨ x ∈ descendants c ∨ x ∈ descList rest := by
        simpa [descList, List.mem_cons, List.mem_append, or_assoc] using hx
      rcases hx2 with rfl | hx2 | hx2
      · exact ⟨[], findAllTagsList tags rest, by simp [findAllTagsList]⟩
      · rcases findAllTags_decomp tags c x hx2 hname with ⟨P, S, hPS⟩
        refine ⟨P, S ++ findAllTagsList tags rest, ?_⟩
        show findAllTags tags c ++ findAllTagsList tags rest = _
        rw [hPS]
        simp [List.append_assoc]
      · rcases findAllTagsList_decomp tags rest x hx2 hname with ⟨P, S, hPS⟩
        refine ⟨findAllTags tags c ++ P, S, ?_⟩
        show findAllTags tags c ++ findAllTagsList tags rest = _
        rw [hPS]
        simp [List.append_assoc]

end

mutual

theorem strTexts_decomp : ∀ (n x : Html), x ∈ descendants n →
    ∃ u v, strTexts n = u ++ strTexts x ++ v := by
  intro n x hx
  match n with
  | .text s => simp [descendants] at hx
  | .elem nm a cs =>
      rcases strTextsList_decomp cs x hx with ⟨u, v, huv⟩
      exact ⟨u, v, huv⟩

theorem strTextsList_decomp : ∀ (cs : List Html) (x : Html), x ∈ descList cs →
    ∃ u v, strTextsList cs = u ++ strTexts x ++ v := by
  intro cs x hx
  match cs with
  | [] => simp [descList] at hx
  | c :: rest =>
      have hx2 : x = c ∨ x ∈ descendants c ∨ x ∈ descList rest := by
        simpa [descList, List.mem_cons, List.mem_append, or_assoc] using hx
      rcases hx2 with rfl | hx2 | hx2
      · exact ⟨[], strTextsList rest, by simp [strTextsList]⟩
      · rcases strTexts_decomp c x hx2 with ⟨u, v, huv⟩
        refine ⟨u, v ++ strTextsList rest, ?_⟩
        show strTexts c ++ strTextsList rest = _
        rw [huv]
        simp [List.append_assoc]
      · rcases strTextsList_decomp rest x hx2 with ⟨u, v, huv⟩
        refine ⟨strTexts c ++ u, v, ?_⟩
        show strTexts c ++ strTextsList rest = _
        rw [huv]
        simp [List.append_assoc]

end

theorem pyJoin_contains_join (sep : String) (u ts v : List String) (hts : ts ≠ []) :
    ∃ A B, pyJoin sep (u ++ (ts ++ v)) = A ++ pyJoin sep ts ++ B := by
  by_cases hv : v = []
  · subst hv
    by_cases hu : u = []
    · subst hu
      refine ⟨"", "", ?_⟩
      apply String.ext
      simp [str_append_data]
    · refine ⟨pyJoin sep u ++ sep, "", ?_⟩
      rw [List.append_nil, pyJoin_append_ne sep hu hts]
      apply String.ext
      simp [str_append_data, List.append_assoc]
  · by_cases hu : u = []
    · subst hu
      refine ⟨"", sep ++ pyJoin sep v, ?_⟩
      rw [List.nil_append, pyJoin_append_ne sep hts hv]
      apply String.ext
      simp [str_append_data, List.append_assoc]
    · have htv : ts ++ v ≠ [] := fun h => hts (List.append_eq_nil.mp h).1
      refine ⟨pyJoin sep u ++ sep, sep ++ pyJoin sep v, ?_⟩
      rw [pyJoin_append_ne sep hu htv, pyJoin_append_ne sep hts hv]
      apply String.ext
      simp [str_append_data, List.append_assoc]

theorem getText_desc_contains {outer inner : Html} (h : inner ∈ descendants outer)
    (hne : getText " " inner ≠ "") :
    ∃ A B, getText " " outer = A ++ getText " " inner ++ B := by
  rcases strTexts_decomp outer inner h with ⟨u, v, heq⟩
  have hts : strTexts inner ≠ [] := by
    intro hnil
    exact hne (by rw [getText, hnil]; rfl)
  rcases pyJoin_contains_join " " u (strTexts inner) v hts with ⟨A, B, hAB⟩
  refine ⟨A, B, ?_⟩
  rw [getText, heq, List.append_assoc]
  exact hAB

/-! # Claim C10: nested block-content duplication -/

theorem pyJoin_two (sep : String) (L0 E : List String) (o t2 : String) :
    ∃ X Y, pyJoin sep (L0 ++ (o :: (E ++ [t2]))) = X ++ o ++ Y ++ t2 := by
  have hcons : (o :: (E ++ [t2]) : List String) ≠ [] := by simp
  by_cases hE : E = []
  · subst hE
    by_cases hL : L0 = []
    · subst hL
      refine ⟨"", sep, ?_⟩
      show pyJoin sep [o, t2] = _
      apply String.ext
      simp [pyJoin, str_append_data, List.append_assoc]
    · refine ⟨pyJoin sep L0 ++ sep, sep, ?_⟩
      rw [pyJoin_append_ne sep hL hcons]
      show pyJoin sep L0 ++ sep ++ pyJoin sep [o, t2] = _
      apply String.ext
      simp [pyJoin, str_append_data, List.append_assoc]
  · have hEt : (E ++ [t2] : List String) ≠ [] := by simp
    have hinner : pyJoin sep (o :: (E ++ [t2]))
        = o ++ sep ++ (pyJoin sep E ++ sep ++ t2) := by
      rw [pyJoin_cons_ne sep o hEt, pyJoin_append_ne sep hE (by simp)]
      rfl
    by_cases hL : L0 = []
    · subst hL
      refine ⟨"", sep ++ pyJoin sep E ++ sep, ?_⟩
      rw [List.nil_append, hinner]
      apply String.ext
      simp [str_append_data, List.append_assoc]
    · refine ⟨pyJoin sep L0 ++ sep, sep ++ pyJoin sep E ++ sep, ?_⟩
      rw [pyJoin_append_ne sep hL hcons, hinner]
      apply String.ext
      simp [str_append_data, List.append_assoc]

theorem occursTwice_count {t s : String} (h : occursTwice t s) (ch : Char) :
    2 * t.data.count ch ≤ s.data.count ch := by
  rcases h with ⟨a, b, c, rfl⟩
  simp only [str_append_data, List.count_append]
  omega

/-- C10 counterexample: for `<main><li><h2>H</h2><p>W</p></li></main>` the
outer `<li>` line and the inner `<p>` line are flushed into different
sections by the heading between them, so no single resulting section's
content contains the inner text `W` twice — refuting the claim, which
asserts it for every nested pair of block-content elements. -/
theorem claim_C10_counterexample :
    extract_html cxDom "s" = [⟨"s", 1, "H W"⟩, ⟨"H", 2, "W"⟩]
  ∧ ¬(∃ s ∈ extract_html cxDom "s", occursTwice "W" s.content) := by
  refine ⟨by decide, ?_⟩
  rintro ⟨s, hs, hocc⟩
  rw [show extract_html cxDom "s" = [⟨"s", 1, "H W"⟩, ⟨"H", 2, "W"⟩] from by decide] at hs
  have hcnt := occursTwice_count hocc 'W'
  rcases List.mem_cons.mp hs with rfl | hs
  · revert hcnt
    decide
  · rcases List.mem_cons.mp hs with rfl | hs
    · revert hcnt
      decide
    · exact absurd hs (List.not_mem_nil s)

/-- C10 (amended): for every HTML input whose chosen container holds a
block-content element nested inside another block-content element, where
the inner element's visible text is non-empty and no heading element
occurs inside the outer element, the extractor appends one line for the
outer element — whose visible text contains the inner element's text —
and a separate line for the inner element, so the inner element's text
appears at least twice in the content of one resulting section. -/
theorem claim_C10_nested_content_duplication :
    ∀ (doc : List Html) (stem : String) (container outer inner : Html),
      chooseContainer doc = some container →
      outer ∈ descendants container →
      nameOf outer ∈ CONTENT_TAGS →
      inner ∈ descendants outer →
      nameOf inner ∈ CONTENT_TAGS →
      getText " " inner ≠ "" →
      (∀ e ∈ descendants outer, nameOf e ∉ HEADING_TAGS) →
      (∃ A B, getText " " outer = A ++ getText " " inner ++ B)
        ∧ ∃ s ∈ extract_html doc stem, occursTwice (getText " " inner) s.content := by
  intro doc stem container outer inner hcc houtd houtn hind hinn hit hnohead
  have hContains : ∃ A B, getText " " outer = A ++ getText " " inner ++ B :=
    getText_desc_contains hind hit
  refine ⟨hContains, ?_⟩
  have hdisj : ∀ nm ∈ CONTENT_TAGS, nm ∉ HEADING_TAGS := by
    intro nm h
    simp only [CONTENT_TAGS, List.mem_cons, List.not_mem_nil, or_false] at h
    rcases h with rfl | rfl | rfl | rfl | rfl | rfl <;> decide
  have htags_out : nameOf outer ∈ HEADING_TAGS ++ CONTENT_TAGS :=
    List.mem_append_right _ houtn
  have htags_in : nameOf inner ∈ HEADING_TAGS ++ CONTENT_TAGS :=
    List.mem_append_right _ hinn
  obtain ⟨onm, oa, ocs, rfl⟩ : ∃ nm a cs, outer = Html.elem nm a cs := by
    cases outer with
    | text s =>
        exact absurd (show ("" : String) ∈ CONTENT_TAGS from houtn) (by decide)
    | elem nm a cs => exact ⟨nm, a, cs, rfl⟩
  obtain ⟨inm, ia, ics, rfl⟩ : ∃ nm a cs, inner = Html.elem nm a cs := by
    cases inner with
    | text s =>
        exact absurd (show ("" : String) ∈ CONTENT_TAGS from hinn) (by decide)
    | elem nm a cs => exact ⟨nm, a, cs, rfl⟩
  set tags := HEADING_TAGS ++ CONTENT_TAGS with htags
  set t := getText " " (Html.elem inm ia ics) with htdef
  set oT := getText " " (Html.elem onm oa ocs) with hoT
  have houtd2 : Html.elem onm oa ocs ∈ descList (childrenOf container) := by
    rw [← descendants_eq]
    exact houtd
  rcases findAllTagsList_decomp tags (childrenOf container) _ houtd2 htags_out with
    ⟨P, S, hPS⟩
  rcases findAllTagsList_decomp tags ocs _ hind htags_in with ⟨P2, S2, hPS2⟩
  have hels : findAllTagsList tags (childrenOf container)
      = P ++ (Html.elem onm oa ocs
          :: (P2 ++ (Html.elem inm ia ics
            :: (findAllTagsList tags ics ++ S2 ++ S)))) := by
    rw [hPS, findAllTags_match (show onm ∈ tags from htags_out), hPS2,
      findAllTags_match (show inm ∈ tags from htags_in)]
    simp [List.append_assoc, List.cons_append]
  have hoT_ne : oT ≠ "" := by
    rcases hContains with ⟨A, B, hAB⟩
    rw [hAB]
    exact str_append_ne_empty_left (str_append_ne_empty_right hit)
  set st1 := List.foldl step ⟨[], stem, 1, []⟩ P with hst1
  have hst1good : ∀ x ∈ st1.lines, goodLine x := by
    rw [hst1]
    exact foldl_lines_good P ⟨[], stem, 1, []⟩ (fun x hx => absurd hx (List.not_mem_nil x))
  have hstep2 : step st1 (Html.elem onm oa ocs)
      = ⟨st1.sections, st1.heading, st1.level, st1.lines ++ [oT]⟩ := by
    unfold step
    rw [if_neg (hdisj _ houtn), if_pos hoT_ne]
  have hnoheadP2 : ∀ e ∈ P2, nameOf e ∉ HEADING_TAGS := by
    intro e he
    apply hnohead
    show e ∈ descendants (Html.elem onm oa ocs)
    rw [descendants_eq]
    exact findAllTagsList_sub tags ocs e (by rw [hPS2]; exact List.mem_append_left _ (List.mem_append_left _ he))
  rcases foldl_content_only P2 hnoheadP2
      ⟨st1.sections, st1.heading, st1.level, st1.lines ++ [oT]⟩ with ⟨E, hE, hEgood⟩
  have hstep4 : step ⟨st1.sections, st1.heading, st1.level, st1.lines ++ [oT] ++ E⟩
        (Html.elem inm ia ics)
      = ⟨st1.sections, st1.heading, st1.level, st1.lines ++ [oT] ++ E ++ [t]⟩ := by
    unfold step
    rw [if_neg (hdisj _ hinn), if_pos hit]
  have hocc4 : occursTwice t (pyJoin "\n" (st1.lines ++ [oT] ++ E ++ [t])) := by
    rcases pyJoin_two "\n" st1.lines E oT t with ⟨X, Y, hXY⟩
    have hshape : st1.lines ++ [oT] ++ E ++ [t] = st1.lines ++ (oT :: (E ++ [t])) := by
      simp [List.append_assoc, List.cons_append]
    rw [hshape, hXY]
    rcases hContains with ⟨A, B, hAB⟩
    exact occursTwice_of_parts hAB
  have hgood4 : ∀ x ∈ st1.lines ++ [oT] ++ E ++ [t], goodLine x := by
    intro x hx
    rcases List.mem_append.mp hx with hx | hx
    · rcases List.mem_append.mp hx with hx | hx
      · rcases List.mem_append.mp hx with hx | hx
        · exact hst1good x hx
        · rcases List.mem_singleton.mp hx with rfl
          exact getText_good hoT_ne
      · exact hEgood x hx
    · rcases List.mem_singleton.mp hx with rfl
      exact getText_good hit
  set rest := findAllTagsList tags ics ++ S2 ++ S with hrest
  set st4 : WalkSt := ⟨st1.sections, st1.heading, st1.level, st1.lines ++ [oT] ++ E ++ [t]⟩
    with hst4
  have hfound := fold_finds_occurrence t hit rest st4 hgood4 hocc4
  have hstF : List.foldl step ⟨[], stem, 1, []⟩ (findAllTagsList tags (childrenOf container))
      = List.foldl step st4 rest := by
    rw [hels, List.foldl_append, List.foldl_cons, ← hst1, hstep2, List.foldl_append,
      List.foldl_cons, hE]
    have : (⟨st1.sections, st1.heading, st1.level, st1.lines ++ [oT] ++ E⟩ : WalkSt)
        = ⟨st1.sections, st1.heading, st1.level, st1.lines ++ [oT] ++ E⟩ := rfl
    rw [show (⟨(⟨st1.sections, st1.heading, st1.level, st1.lines ++ [oT]⟩ : WalkSt).sections,
        (⟨st1.sections, st1.heading, st1.level, st1.lines ++ [oT]⟩ : WalkSt).heading,
        (⟨st1.sections, st1.heading, st1.level, st1.lines ++ [oT]⟩ : WalkSt).level,
        (⟨st1.sections, st1.heading, st1.level, st1.lines ++ [oT]⟩ : WalkSt).lines ++ E⟩ : WalkSt)
      = (⟨st1.sections, st1.heading, st1.level, st1.lines ++ [oT] ++ E⟩ : WalkSt) from rfl]
    rw [hstep4]
  rcases hfound with ⟨s, hsmem, hsocc⟩
  refine ⟨s, ?_, hsocc⟩
  have hext : extract_html doc stem = walkContainer stem container := by
    simp only [extract_html, hcc]
  rw [hext]
  have hne : ((List.foldl step st4 rest).sections
      ++ (if flushBody (List.foldl step st4 rest) ≠ "" then
            [⟨(List.foldl step st4 rest).heading, (List.foldl step st4 rest).level,
              flushBody (List.foldl step st4 rest)⟩]
          else [])) ≠ [] := List.ne_nil_of_mem hsmem
  have hwc : walkContainer stem container
      = (List.foldl step st4 rest).sections
        ++ (if flushBody (List.foldl step st4 rest) ≠ "" then
              [⟨(List.foldl step st4 rest).heading, (List.foldl step st4 rest).level,
                flushBody (List.foldl step st4 rest)⟩]
            else []) := by
    simp only [walkContainer]
    rw [show findAllTagsList (HEADING_TAGS ++ CONTENT_TAGS) (childrenOf container)
        = findAllTagsList tags (childrenOf container) from rfl, hstF, if_neg hne]
  rw [hwc]
  exact hsmem

/-- Witness for C10 at `<main><li><p>W</p></li></main>`. -/
theorem claim_C10_witness :
    (∃ A B, getText " " wOuter = A ++ getText " " wInner ++ B)
  ∧ ∃ s ∈ extract_html wDom "s", occursTwice (getText " " wInner) s.content := by
  refine claim_C10_nested_content_duplication wDom "s" (.elem "main" [] [wOuter])
    wOuter wInner rfl ?_ (by decide) ?_ (by decide) (by decide) ?_
  · show wOuter ∈ descList [wOuter]
    show wOuter ∈ wOuter :: (descendants wOuter ++ [])
    exact List.mem_cons_self _ _
  · show wInner ∈ descList [wInner]
    show wInner ∈ wInner :: (descendants wInner ++ [])
    exact List.mem_cons_self _ _
  · intro e he
    have : e ∈ descList [wInner] := he
    have h2 : e = wInner ∨ e ∈ descendants wInner ∨ e ∈ descList ([] : List Html) := by
      simpa [descList, List.mem_cons, List.mem_append, or_assoc] using this
    rcases h2 with rfl | h2 | h2
    · decide
    · rcases (by simpa [wInner, descendants, descList] using h2 : e = Html.text "W") with rfl
      decide
    · exact absurd h2 (by simp [descList])

end Compligator
